import Mathlib

/-!
Verification development for the PyQtTester repository (src/pyqttester.py,
src/qttestgui.py): a shallow embedding of the widget-path addressing
scheme, the event serialization codec, the object registry, and the
capture/replay state machines, with theorems settling the frozen claims.

Widgets are modelled by natural-number identities.  The ambient Qt runtime
(`qApp.topLevelWidgets()`, `widget.parentWidget()`, the result of
`Resolver._get_children`, `type(...)` via its serialized name,
`objectName()`, `qApp.findChild`/`allWidgets`) is modelled as an explicit
record of capabilities, `App`.  Python's `sys.exit`, uncaught exceptions
and nontermination are modelled with `Option`/explicit outcome types.
-/

namespace PyQtTester

/-- One hop of a structural widget address.
Mirrors `PathElement = namedtuple('PathElement', ('index', 'type', 'name'))`
(src/pyqttester.py line 355): `index` is the position among same-typed
siblings, `type` the string produced by `Resolver.serialize_type`
(types are identified with their serialized names in this model),
`name` the widget's `objectName()`. -/
structure PathElement where
  index : Nat
  type : String
  name : String
deriving DecidableEq, Repr

/-- An object path: ordered sequence of hops, root (top-level window) first. -/
abbrev ObjPath := List PathElement

/-- The ambient Qt runtime as seen by `Resolver` in src/pyqttester.py.
`children w` is the (ordered, possibly duplicated) enumeration that
`Resolver._get_children(w)` yields for a live widget `w`; `topLevel`
is `qApp.topLevelWidgets()`, which is also what `_get_children(None)`
yields; `parent` is `widget.parentWidget()`; `typeOf` is the serialized
name of `type(widget)` (`serialize_type`/`deserialize_type` are mutually
inverse string encodings, so the model identifies a concrete type with
its serialized name); `nameOf` is `objectName()`; `findChildNameHit` is
the result of `qApp.findChild(type, name)` and `allWidgets` is
`qApp.allWidgets()`, both used only by `Resolver._find_by_name`. -/
structure App where
  topLevel : List Nat
  children : Nat → List Nat
  parent : Nat → Option Nat
  typeOf : Nat → String
  nameOf : Nat → String
  findChildNameHit : String → String → Option Nat
  allWidgets : List Nat

/-- `Resolver._get_children(widget)` where `widget` may be Python `None`:
`None` yields the top-level widgets (src/pyqttester.py lines 567-568). -/
def childrenOpt (a : App) : Option Nat → List Nat
  | none => a.topLevel
  | some w => a.children w

/-- The typed index computed inside `Resolver.serialize_object`
(src/pyqttester.py lines 598-599): position of `w` (by identity) among
the children of the same concrete type, or `None`. -/
def typedIndexOf (a : App) (ws : List Nat) (w : Nat) : Option Nat :=
  (ws.filter fun c => a.typeOf c == a.typeOf w).findIdx? (· == w)

/-- `typed_nth(n, target_type, iterable)` (src/pyqttester.py lines 47-49):
the n-th item of the given type, or `None`. -/
def typedNth (a : App) (n : Nat) (ty : String) (ws : List Nat) : Option Nat :=
  (ws.filter fun c => a.typeOf c == ty).get? n

/-- The `while parent is not None` loop of `Resolver.serialize_object`
(src/pyqttester.py lines 592-615), as a fuelled recursion (the Python loop
diverges on a cyclic parent chain; `none` models running out of fuel).
The loop appends one element per ancestor and finally reverses; building
the list root-first by appending at the tail is the same computation.
`some []` is the abandoned path `()`: as in the source, a failing typed
index at ANY ancestor discards the whole path. -/
def serializeLoop (a : App) : Nat → Nat → Option ObjPath
  | 0, _ => none
  | fuel + 1, w =>
    match typedIndexOf a (childrenOpt a (a.parent w)) w with
    | none => some []
    | some i =>
      let e : PathElement := ⟨i, a.typeOf w, a.nameOf w⟩
      match a.parent w with
      | none => some [e]
      | some q =>
        match serializeLoop a fuel q with
        | none => none
        | some [] => some []
        | some pre => some (pre ++ [e])

/-- `Resolver.serialize_object` (src/pyqttester.py lines 588-617):
returns the empty path on failure, a full root-to-target path otherwise;
`none` models nontermination (insufficient fuel). -/
def serializeObject (a : App) (fuel : Nat) (obj : Nat) : Option ObjPath :=
  serializeLoop a fuel obj

/-- `Resolver._find_by_name` (src/pyqttester.py lines 619-623):
`qApp.findChild(type, name)` or else the first widget of any type whose
`objectName()` matches; `none` models the uncaught-then-caught
`StopIteration`. -/
def findByName (a : App) (t : PathElement) : Option Nat :=
  match a.findChildNameHit t.type t.name with
  | some w => some w
  | none => a.allWidgets.find? fun w => a.nameOf w == t.name

/-- The inner `get_child(i, widgets)` of `Resolver.deserialize_object`
(src/pyqttester.py lines 641-648), recursing over the path suffix.
Note the source stops as soon as the current element VALUE-equals the
final element (`element == target`), not when the final position is
reached.  An empty suffix cannot be reached from a nonempty path
(the last element always equals `target`); `none` there models the
out-of-range `path[i]`. -/
def getChild (a : App) (target : PathElement) : List PathElement → List Nat → Option Nat
  | [], _ => none
  | e :: rest, ws =>
    match typedNth a e.index e.type ws with
    | none => none
    | some w => if e = target then some w else getChild a target rest (a.children w)

/-- `Resolver.deserialize_object` (src/pyqttester.py lines 625-650):
name shortcut first (only when the final element carries a name, and
falling through on a miss), then structural descent from the top-level
widgets.  `path[-1]` on an empty path raises in Python; modelled `none`. -/
def deserializeObject (a : App) (path : ObjPath) : Option Nat :=
  match path.getLast? with
  | none => none
  | some target =>
    match (if target.name = "" then none else findByName a target) with
    | some w => some w
    | none => getChild a target path a.topLevel

/-- Iterated `parentWidget()`: the ancestor `k` levels above `w`. -/
def parentIter (a : App) : Nat → Nat → Option Nat
  | 0, w => some w
  | k + 1, w =>
    match a.parent w with
    | none => none
    | some q => parentIter a k q

/-! ### Helper lemmas about typed indices -/

theorem findIdx_q_get (l : List Nat) (w : Nat) :
    ∀ i, l.findIdx? (· == w) = some i → l.get? i = some w := by
  induction l with
  | nil => intro i h; simp [List.findIdx?] at h
  | cons x xs ih =>
    intro i h
    rw [List.findIdx?_cons] at h
    by_cases hx : x = w
    · simp [hx] at h
      subst h
      simp [hx]
    · have hbeq : (x == w) = false := by simp [hx]
      rw [hbeq] at h
      simp at h
      obtain ⟨j, hj, rfl⟩ := h
      simpa using ih j hj

theorem typedIndexOf_nth (a : App) (ws : List Nat) (w : Nat) (i : Nat)
    (h : typedIndexOf a ws w = some i) :
    typedNth a i (a.typeOf w) ws = some w := by
  unfold typedIndexOf at h
  unfold typedNth
  exact findIdx_q_get _ w i h

theorem typedIndexOf_mem (a : App) (ws : List Nat) (w : Nat) (i : Nat)
    (h : typedIndexOf a ws w = some i) : w ∈ ws := by
  have hget := typedIndexOf_nth a ws w i h
  unfold typedNth at hget
  have hmem : w ∈ ws.filter fun c => a.typeOf c == a.typeOf w :=
    List.get?_mem hget
  exact List.mem_of_mem_filter hmem

/-! ### Shape of the serialized path -/

/-- A successful `serializeLoop` result ends in the element describing
`w` itself. -/
theorem serializeLoop_last (a : App) :
    ∀ fuel w p, serializeLoop a fuel w = some p → p ≠ [] →
      ∃ i pre, typedIndexOf a (childrenOpt a (a.parent w)) w = some i ∧
        p = pre ++ [⟨i, a.typeOf w, a.nameOf w⟩] := by
  intro fuel
  induction fuel with
  | zero => intro w p h hne; simp [serializeLoop] at h
  | succ f ih =>
    intro w p h hne
    unfold serializeLoop at h
    cases hpar : a.parent w with
    | none =>
      rw [hpar] at h
      cases hidx : typedIndexOf a (childrenOpt a none) w with
      | none => rw [hidx] at h; simp at h; exact absurd h hne
      | some i =>
        rw [hidx] at h
        simp at h
        exact ⟨i, [], rfl, by simp [← h]⟩
    | some q =>
      rw [hpar] at h
      cases hidx : typedIndexOf a (childrenOpt a (some q)) w with
      | none => rw [hidx] at h; simp at h; exact absurd h hne
      | some i =>
        rw [hidx] at h
        simp only [] at h
        cases hrec : serializeLoop a f q with
        | none => rw [hrec] at h; simp at h
        | some pre =>
          rw [hrec] at h
          cases pre with
          | nil => simp at h; exact absurd h hne
          | cons x xs =>
            simp at h
            exact ⟨i, x :: xs, rfl, h.symm⟩

/-- Main descent lemma: a successful nonempty serialization of `w`
descends (under `getChild`) from the top-level list precisely to `w`'s
own children enumeration, provided no element of the serialized prefix
value-equals the target being searched for. -/
theorem serializeLoop_descend (a : App) :
    ∀ fuel w p, serializeLoop a fuel w = some p → p ≠ [] →
      ∀ tgt, (∀ x ∈ p, x ≠ tgt) →
      ∀ suffix, suffix ≠ [] →
        getChild a tgt (p ++ suffix) a.topLevel =
          getChild a tgt suffix (a.children w) := by
  intro fuel
  induction fuel with
  | zero => intro w p h; simp [serializeLoop] at h
  | succ f ih =>
    intro w p h hne tgt htgt suffix hsuf
    unfold serializeLoop at h
    cases hpar : a.parent w with
    | none =>
      rw [hpar] at h
      cases hidx : typedIndexOf a (childrenOpt a none) w with
      | none => rw [hidx] at h; simp at h; exact absurd h hne
      | some i =>
        rw [hidx] at h
        simp at h
        subst h
        have hnth : typedNth a i (a.typeOf w) a.topLevel = some w :=
          typedIndexOf_nth a _ w i hidx
        have hne_tgt : (⟨i, a.typeOf w, a.nameOf w⟩ : PathElement) ≠ tgt :=
          htgt _ (by simp)
        simp [getChild, hnth, hne_tgt]
    | some q =>
      rw [hpar] at h
      cases hidx : typedIndexOf a (childrenOpt a (some q)) w with
      | none => rw [hidx] at h; simp at h; exact absurd h hne
      | some i =>
        rw [hidx] at h
        simp only [] at h
        cases hrec : serializeLoop a f q with
        | none => rw [hrec] at h; simp at h
        | some pre =>
          rw [hrec] at h
          cases pre with
          | nil => simp at h; exact absurd h hne
          | cons x xs =>
            simp at h
            subst h
            have hprefix : ∀ y ∈ x :: xs, y ≠ tgt := by
              intro y hy
              apply htgt
              simp only [List.mem_cons, List.mem_append] at hy ⊢
              tauto
            have hlast_ne : (⟨i, a.typeOf w, a.nameOf w⟩ : PathElement) ≠ tgt :=
              htgt _ (by simp)
            have happ :
                x :: ((xs ++ [(⟨i, a.typeOf w, a.nameOf w⟩ : PathElement)]) ++ suffix) =
                  (x :: xs) ++ ((⟨i, a.typeOf w, a.nameOf w⟩ : PathElement) :: suffix) := by
              simp
            rw [show x :: (xs ++ [(⟨i, a.typeOf w, a.nameOf w⟩ : PathElement)]) ++ suffix =
                  (x :: xs) ++ ((⟨i, a.typeOf w, a.nameOf w⟩ : PathElement) :: suffix) from happ,
              ih q (x :: xs) hrec (by simp) tgt hprefix _ (by simp)]
            have hnth : typedNth a i (a.typeOf w) (a.children q) = some w := by
              have h2 := typedIndexOf_nth a _ w i hidx
              simpa [childrenOpt] using h2
            simp [getChild, hnth, hlast_ne]

/-- Full structural descent: a successful nonempty serialization is found
again by `getChild`, provided no element of the path other than the last
value-equals the searched-for target element. -/
theorem getChild_self (a : App) (fuel : Nat) (w : Nat) (p : ObjPath) (tgt : PathElement)
    (h : serializeLoop a fuel w = some p) (hne : p ≠ [])
    (hlast : p.getLast? = some tgt)
    (hdist : ∀ e ∈ p.dropLast, e ≠ tgt) :
    getChild a tgt p a.topLevel = some w := by
  cases fuel with
  | zero => simp [serializeLoop] at h
  | succ f =>
    unfold serializeLoop at h
    cases hpar : a.parent w with
    | none =>
      rw [hpar] at h
      cases hidx : typedIndexOf a (childrenOpt a none) w with
      | none => rw [hidx] at h; simp at h; exact absurd h hne
      | some i =>
        rw [hidx] at h
        simp at h
        subst h
        simp at hlast
        have hnth : typedNth a i (a.typeOf w) a.topLevel = some w :=
          typedIndexOf_nth a _ w i hidx
        simp [getChild, hnth, hlast]
    | some q =>
      rw [hpar] at h
      cases hidx : typedIndexOf a (childrenOpt a (some q)) w with
      | none => rw [hidx] at h; simp at h; exact absurd h hne
      | some i =>
        rw [hidx] at h
        simp only [] at h
        cases hrec : serializeLoop a f q with
        | none => rw [hrec] at h; simp at h
        | some pre =>
          rw [hrec] at h
          cases pre with
          | nil => simp at h; exact absurd h hne
          | cons x xs =>
            simp at h
            subst h
            have hlast2 : tgt = (⟨i, a.typeOf w, a.nameOf w⟩ : PathElement) := by
              rw [show x :: (xs ++ [(⟨i, a.typeOf w, a.nameOf w⟩ : PathElement)]) =
                    (x :: xs) ++ [(⟨i, a.typeOf w, a.nameOf w⟩ : PathElement)] from by simp,
                List.getLast?_concat] at hlast
              exact (Option.some_injective _ hlast).symm
            have hpre : ∀ y ∈ x :: xs, y ≠ tgt := by
              intro y hy
              apply hdist
              rw [show x :: (xs ++ [(⟨i, a.typeOf w, a.nameOf w⟩ : PathElement)]) =
                    (x :: xs) ++ [(⟨i, a.typeOf w, a.nameOf w⟩ : PathElement)] from by simp,
                List.dropLast_concat]
              exact hy
            have hstep := serializeLoop_descend a f q (x :: xs) hrec (by simp) tgt hpre
              [(⟨i, a.typeOf w, a.nameOf w⟩ : PathElement)] (by simp)
            rw [show x :: (xs ++ [(⟨i, a.typeOf w, a.nameOf w⟩ : PathElement)]) =
                  (x :: xs) ++ [(⟨i, a.typeOf w, a.nameOf w⟩ : PathElement)] from by simp,
              hstep]
            have hnth : typedNth a i (a.typeOf w) (a.children q) = some w := by
              have h2 := typedIndexOf_nth a _ w i hidx
              simpa [childrenOpt] using h2
            simp [getChild, hnth, ← hlast2]

/-- C1, amended: the address round trip holds for every reachable widget
whose `objectName()` is empty (so the name shortcut cannot preempt the
structural descent) and whose serialized path has no interior element
value-equal to its final element (the source's `get_child` stops at the
first element that value-equals `path[-1]`, not at the final position). -/
theorem serialize_deserialize_roundtrip (a : App) (fuel obj : Nat) (p : ObjPath)
    (hs : serializeObject a fuel obj = some p) (hne : p ≠ [])
    (hname : a.nameOf obj = "")
    (hdist : ∀ e ∈ p.dropLast, p.getLast? ≠ some e) :
    deserializeObject a p = some obj := by
  obtain ⟨i, pre, hidx, hp⟩ := serializeLoop_last a fuel obj p hs hne
  have hlast : p.getLast? = some (⟨i, a.typeOf obj, a.nameOf obj⟩ : PathElement) := by
    rw [hp, List.getLast?_concat]
  have hdes : deserializeObject a p =
      getChild a ⟨i, a.typeOf obj, a.nameOf obj⟩ p a.topLevel := by
    unfold deserializeObject
    rw [hlast]
    simp [hname]
  rw [hdes]
  exact getChild_self a fuel obj p _ hs hne hlast
    (fun e he heq => hdist e he (heq ▸ hlast))

/-- App with a single top-level window (id 0, type W) containing one
child button (id 1, type B), both unnamed: the generic round-trip setting. -/
def c1App : App where
  topLevel := [0]
  children := fun w => if w = 0 then [1] else []
  parent := fun w => if w = 1 then some 0 else none
  typeOf := fun w => if w = 0 then "W" else "B"
  nameOf := fun _ => ""
  findChildNameHit := fun _ _ => none
  allWidgets := [0, 1]

theorem serialize_deserialize_roundtrip_witness :
    deserializeObject c1App [⟨0, "W", ""⟩, ⟨0, "B", ""⟩] = some 1 :=
  serialize_deserialize_roundtrip c1App 5 1 [⟨0, "W", ""⟩, ⟨0, "B", ""⟩]
    (by decide) (by decide) (by decide) (by decide)

/-- App refuting C1 as stated: a top-level widget (id 0) and its child
(id 1) share the concrete type T and are both unnamed, so the child's
path is [(0,T,''),(0,T,'')] and the descent's `element == target` test
already fires at the first hop, returning the parent. -/
def c1CexApp : App where
  topLevel := [0]
  children := fun w => if w = 0 then [1] else []
  parent := fun w => if w = 1 then some 0 else none
  typeOf := fun _ => "T"
  nameOf := fun _ => ""
  findChildNameHit := fun _ _ => none
  allWidgets := [0, 1]

/-- C1 as stated is false: widget 1 serializes to the nonempty path
[(0,T,''),(0,T,'')], but deserializing that path returns widget 0,
not widget 1. -/
theorem serialize_deserialize_counterexample :
    serializeObject c1CexApp 5 1 = some [⟨0, "T", ""⟩, ⟨0, "T", ""⟩] ∧
    ([(⟨0, "T", ""⟩ : PathElement), ⟨0, "T", ""⟩] : ObjPath) ≠ [] ∧
    deserializeObject c1CexApp [⟨0, "T", ""⟩, ⟨0, "T", ""⟩] = some 0 ∧
    deserializeObject c1CexApp [⟨0, "T", ""⟩, ⟨0, "T", ""⟩] ≠ some 1 := by
  refine ⟨by decide, by decide, by decide, by decide⟩

/-! ### C5: never a partial path; a 1-element path means a top-level window -/

theorem serialize_abandons_on_failure (a : App) :
    ∀ k fuel obj v, parentIter a k obj = some v →
      typedIndexOf a (childrenOpt a (a.parent v)) v = none →
      serializeObject a fuel obj = none ∨ serializeObject a fuel obj = some [] := by
  intro k
  induction k with
  | zero =>
    intro fuel obj v hpi hfail
    simp [parentIter] at hpi
    subst hpi
    cases fuel with
    | zero => left; rfl
    | succ f =>
      right
      unfold serializeObject serializeLoop
      rw [hfail]
  | succ k ih =>
    intro fuel obj v hpi hfail
    unfold parentIter at hpi
    cases hpar : a.parent obj with
    | none => rw [hpar] at hpi; simp at hpi
    | some q =>
      rw [hpar] at hpi
      cases fuel with
      | zero => left; rfl
      | succ f =>
        cases hidx : typedIndexOf a (childrenOpt a (some q)) obj with
        | none =>
          right
          unfold serializeObject
          simp only [serializeLoop, hpar, hidx]
        | some i =>
          rcases ih f q v hpi hfail with hq | hq
          · left
            unfold serializeObject at hq ⊢
            simp only [serializeLoop, hpar, hidx, hq]
          · right
            unfold serializeObject at hq ⊢
            simp only [serializeLoop, hpar, hidx, hq]

theorem serialize_singleton_topLevel (a : App) (fuel obj : Nat) (e : PathElement)
    (hs : serializeObject a fuel obj = some [e]) : obj ∈ a.topLevel := by
  cases fuel with
  | zero => simp [serializeObject, serializeLoop] at hs
  | succ f =>
    unfold serializeObject serializeLoop at hs
    cases hpar : a.parent obj with
    | none =>
      rw [hpar] at hs
      cases hidx : typedIndexOf a (childrenOpt a none) obj with
      | none => rw [hidx] at hs; simp at hs
      | some i =>
        have := typedIndexOf_mem a _ obj i hidx
        simpa [childrenOpt] using this
    | some q =>
      rw [hpar] at hs
      cases hidx : typedIndexOf a (childrenOpt a (some q)) obj with
      | none => rw [hidx] at hs; simp at hs
      | some i =>
        rw [hidx] at hs
        simp only [] at hs
        cases hrec : serializeLoop a f q with
        | none => rw [hrec] at hs; simp at hs
        | some pre =>
          rw [hrec] at hs
          cases pre with
          | nil => simp at hs
          | cons x xs => simp at hs

theorem serialize_reaches_root (a : App) :
    ∀ fuel obj p, serializeObject a fuel obj = some p → p ≠ [] →
      ∃ r, parentIter a (p.length - 1) obj = some r ∧ a.parent r = none := by
  intro fuel
  induction fuel with
  | zero => intro obj p hs; simp [serializeObject, serializeLoop] at hs
  | succ f ih =>
    intro obj p hs hne
    unfold serializeObject serializeLoop at hs
    cases hpar : a.parent obj with
    | none =>
      rw [hpar] at hs
      cases hidx : typedIndexOf a (childrenOpt a none) obj with
      | none => rw [hidx] at hs; simp at hs; exact absurd hs hne
      | some i =>
        rw [hidx] at hs
        simp at hs
        subst hs
        exact ⟨obj, by simp [parentIter], hpar⟩
    | some q =>
      rw [hpar] at hs
      cases hidx : typedIndexOf a (childrenOpt a (some q)) obj with
      | none => rw [hidx] at hs; simp at hs; exact absurd hs hne
      | some i =>
        rw [hidx] at hs
        simp only [] at hs
        cases hrec : serializeLoop a f q with
        | none => rw [hrec] at hs; simp at hs
        | some pre =>
          rw [hrec] at hs
          cases pre with
          | nil => simp at hs; exact absurd hs hne
          | cons x xs =>
            simp at hs
            obtain ⟨r, hr, hroot⟩ := ih q (x :: xs) hrec (by simp)
            refine ⟨r, ?_, hroot⟩
            rw [← hs]
            have hlen : (x :: (xs ++ [(⟨i, a.typeOf obj, a.nameOf obj⟩ : PathElement)])).length - 1
                = (x :: xs).length := by simp
            rw [hlen]
            simp only [List.length_cons]
            simp only [parentIter, hpar]
            simpa using hr

/-- C5: `serialize_object` never returns a partial path — a failing typed
index at any ancestor yields the empty path (or the loop diverges); a
returned 1-element path implies the widget is itself a top-level window;
and every nonempty result spans the widget's full ancestor chain up to a
parentless root. -/
theorem serialize_complete_or_empty :
    (∀ (a : App) (k fuel obj v : Nat), parentIter a k obj = some v →
      typedIndexOf a (childrenOpt a (a.parent v)) v = none →
      serializeObject a fuel obj = none ∨ serializeObject a fuel obj = some []) ∧
    (∀ (a : App) (fuel obj : Nat) (e : PathElement),
      serializeObject a fuel obj = some [e] → obj ∈ a.topLevel) ∧
    (∀ (a : App) (fuel obj : Nat) (p : ObjPath),
      serializeObject a fuel obj = some p → p ≠ [] →
      ∃ r, parentIter a (p.length - 1) obj = some r ∧ a.parent r = none) :=
  ⟨fun a k fuel obj v h1 h2 => serialize_abandons_on_failure a k fuel obj v h1 h2,
   fun a fuel obj e h => serialize_singleton_topLevel a fuel obj e h,
   fun a fuel obj p h hne => serialize_reaches_root a fuel obj p h hne⟩

/-- App in which widget 2 claims to be parentless but is missing from the
top-level enumeration, so its typed index fails and the path is abandoned. -/
def c5App : App where
  topLevel := [0]
  children := fun _ => []
  parent := fun _ => none
  typeOf := fun _ => "T"
  nameOf := fun _ => ""
  findChildNameHit := fun _ _ => none
  allWidgets := [0]

theorem serialize_complete_or_empty_witness :
    (serializeObject c5App 3 2 = none ∨ serializeObject c5App 3 2 = some []) ∧
    0 ∈ c1App.topLevel ∧
    (∃ r, parentIter c1App ((([⟨0, "W", ""⟩, ⟨0, "B", ""⟩] : ObjPath)).length - 1) 1 = some r ∧
      c1App.parent r = none) :=
  ⟨serialize_complete_or_empty.1 c5App 0 3 2 2 (by decide) (by decide),
   serialize_complete_or_empty.2.1 c1App 5 0 ⟨0, "W", ""⟩ (by decide),
   serialize_complete_or_empty.2.2 c1App 5 1 [⟨0, "W", ""⟩, ⟨0, "B", ""⟩] (by decide) (by decide)⟩

/-! ### The event codec (src/pyqttester.py lines 369-544)

The reflection environment: `qtDict` models the `Qt.__dict__` namespace as an
ordered list of entries (attribute name, sip enum class name of the value,
integer value); the class name is what `isinstance(obj, klass)` dispatches on
in `_qenum_key`'s fallback search.  `eventTypeDict` models the
`QEvent` enumerator reflection (`staticMetaObject` / `valueToKey`):
(key name, integer value) in declaration order. -/

structure QtEnv where
  qtDict : List (String × String × Nat)
  eventTypeDict : List (String × Nat)

/-- The `Qt.__dict__` search of `_qenum_key(Qt, value, klass)`
(src/pyqttester.py lines 407-411): the first entry that is an instance of
`klass` and equals `value`, or `None`. -/
def qenumFindQt (env : QtEnv) (cls : String) (v : Nat) : Option String :=
  (env.qtDict.find? fun e => e.2.1 == cls && e.2.2 == v).map (·.1)

/-- `_qenum_key(Qt, value, klass)` result string: `'Qt.' + key` if found,
`''` otherwise (src/pyqttester.py line 412). -/
def qenumKeyQt (env : QtEnv) (cls : String) (v : Nat) : String :=
  match qenumFindQt env cls v with
  | some n => "Qt." ++ n
  | none => ""

/-- `_qenum_key(QtCore.QEvent, value)` via the meta-object enumerator
(`valueToKey` returns the first key with that value, or `None`):
result `'QEvent.' + key` or `''`. -/
def qenumKeyQEvent (env : QtEnv) (v : Nat) : String :=
  match (env.eventTypeDict.find? fun e => e.2 == v).map (·.1) with
  | some n => "QEvent." ++ n
  | none => ""

/-- `name.endswith('s')`, computed on the character list
(`String.endsWith` itself does not reduce in the kernel). -/
def endsWithS (s : String) : Bool := s.data.getLast? == some 's'

/-- `name.startswith('Key_')`, computed on the character list. -/
def startsWithKey (s : String) : Bool := ['K', 'e', 'y', '_'].isPrefixOf s.data

/-- The attribute name behind `QT_KEYS[value]` (src/pyqttester.py
lines 273-275): the dict comprehension `{value: 'Qt.' + key for key,
value in Qt.__dict__.items() if key.startswith('Key_')}`; for a
duplicated value the LAST binding wins. -/
def qtKeysRaw (env : QtEnv) (v : Nat) : Option String :=
  ((env.qtDict.filter fun e => startsWithKey e.1).reverse.find?
    fun e => e.2.2 == v).map (·.1)

/-- `QT_KEYS[value]` itself: the `'Qt.' + key` display string. -/
def qtKeys (env : QtEnv) (v : Nat) : Option String :=
  (qtKeysRaw env v).map ("Qt." ++ ·)

/-- The `while mask <= value` scan of `_qflags_key`
(src/pyqttester.py lines 451-456), collecting the set-bit masks in
ascending order.  The fuel `v + 1` used below always suffices because the
mask doubles each iteration. -/
def qflagsMasks : Nat → Nat → Nat → List Nat
  | 0, _, _ => []
  | f + 1, mask, v =>
    if mask ≤ v then
      (if v &&& mask ≠ 0 then [mask] else []) ++ qflagsMasks f (2 * mask) v
    else []

/-- The key list built by `_qflags_key` (src/pyqttester.py lines 444-459)
after `filter(None, keys)`, as raw `Qt` attribute names: the singular
class is looked up when the flags class name ends in `'s'`; one name per
named set bit in ascending mask order; value `0` is special-cased to the
name of the zero constant.  Unnamed bits contribute `''` in the source
and are removed by the filter, which the `filterMap` performs directly. -/
def qflagsRawNames (env : QtEnv) (clsPlural : String) (v : Nat) : List String :=
  let cls := if endsWithS clsPlural then clsPlural.dropRight 1 else clsPlural
  if v = 0 then
    match qenumFindQt env cls 0 with
    | some n => [n]
    | none => []
  else (qflagsMasks (v + 1) 1 v).filterMap fun m => qenumFindQt env cls m

/-- `_qflags_key` final string: `'|'.join(filter(None, keys))` with each
key rendered `'Qt.' + name`. -/
def qflagsKey (env : QtEnv) (clsPlural : String) (v : Nat) : String :=
  String.intercalate "|" ((qflagsRawNames env clsPlural v).map ("Qt." ++ ·))

/-- Argument tokens `serialize_event` emits.  The source renders them into
the string `ClassName(tok, tok, ...)` and `deserialize_event` re-parses
that string with Python's `eval`; the emitted argument grammar is exactly
this inductive (dotted names, `|`-joined `Qt.<name>` atoms, int, repr'd
str and bool literals, QPoint/QRect constructor calls, and the literal
`0b0` sentinel), and Python's parser and `repr`/`eval` are mutually
inverse on it, so the model works with the parsed form directly. -/
inductive PyTok where
  | qname (parts : List String)
  | orNames (names : List String)
  | intLit (n : Nat)
  | strLit (s : String)
  | boolLit (b : Bool)
  | pointLit (cls : String) (x y : Int)
  | rectLit (cls : String) (x y w h : Int)
  | zeroSentinel
deriving DecidableEq, Repr

/-- A serialized event: the event class name plus the ordered argument
tokens (rendered `className(args...)` by the source). -/
structure SerEvent where
  className : String
  args : List PyTok
deriving DecidableEq, Repr

/-- A Python attribute value as `_serialize_value` dynamically inspects
it (src/pyqttester.py lines 461-502): a plain int (`vint`, non-negative
in every first-class attribute), str, bool, a QPoint/QPointF or
QRect/QRectF, a sip enum instance (an int subclass carrying its enum
class name), or a QFlags instance (carrying its class name, which for
real Qt flags ends in `'s'`). -/
inductive AttrVal where
  | vint (n : Nat)
  | vstr (s : String)
  | vbool (b : Bool)
  | vpoint (cls : String) (x y : Int)
  | vrect (cls : String) (x y w h : Int)
  | venum (cls : String) (v : Nat)
  | vflags (cls : String) (v : Nat)
deriving DecidableEq

/-- Outcome of `_serialize_value`: a token, a raised `ValueError`
(caught by `serialize_event`, which substitutes the `0b0` sentinel), or a
raised `KeyError` from `QT_KEYS[value]` (NOT caught anywhere: it aborts
the whole recording). -/
inductive SerValueResult where
  | ok (t : PyTok)
  | valueError
  | keyError
deriving DecidableEq

/-- The flags leg shared by the two `endswith('s')` fall-throughs of
`_serialize_value`: `s = cls._qflags_key(Qt, value); if s: return s`,
else fall through to `raise ValueError`. -/
def serializeFlagsValue (env : QtEnv) (cls : String) (v : Nat) : SerValueResult :=
  match qflagsRawNames env cls v with
  | [] => .valueError
  | ns => .ok (.orNames ns)

/-- `Resolver._serialize_value(value, attr)` (src/pyqttester.py
lines 461-502), branch for branch. -/
def serializeValue (env : QtEnv) (value : AttrVal) (attr : String) : SerValueResult :=
  match value with
  | .vint n =>
    if attr = "key" then
      match qtKeysRaw env n with
      | some nm => .ok (.qname ["Qt", nm])
      | none => .keyError
    else .ok (.intLit n)
  | .vstr s => .ok (.strLit s)
  | .vbool b => .ok (.boolLit b)
  | .vpoint cls x y => .ok (.pointLit cls x y)
  | .vrect cls x y w h => .ok (.rectLit cls x y w h)
  | .venum cls v =>
    match qenumFindQt env cls v with
    | some n => .ok (.qname ["Qt", n])
    | none =>
      if endsWithS cls then serializeFlagsValue env cls v else .valueError
  | .vflags cls v =>
    if endsWithS cls then serializeFlagsValue env cls v else .valueError

/-- The four first-class event kinds of `EVENT_ATTRIBUTES`
(src/pyqttester.py lines 504-510).  `QMouseEvent` and `QKeyEvent`
constructors take the type code explicitly; `QMoveEvent` and
`QCloseEvent` do not list `type` among their attributes (their
constructors fix it). -/
inductive QtEvent where
  | mouse (etype : Nat) (pos globalPos : Int × Int) (button buttons modifiers : Nat)
  | keyev (etype key modifiers : Nat) (text : String) (autorep : Bool) (count : Nat)
  | move (pos oldPos : Int × Int)
  | close
deriving DecidableEq, Repr

/-- The attribute-value/attribute-name list walked by the
`for attr in event_attributes` loop, after the special-cased leading
`type` attribute has been peeled off. -/
def QtEvent.restAttrs : QtEvent → List (AttrVal × String)
  | .mouse _ p g b bs m =>
    [(.vpoint "QPoint" p.1 p.2, "pos"),
     (.vpoint "QPoint" g.1 g.2, "globalPos"),
     (.venum "MouseButton" b, "button"),
     (.vflags "MouseButtons" bs, "buttons"),
     (.vflags "KeyboardModifiers" m, "modifiers")]
  | .keyev _ k m txt ar c =>
    [(.vint k, "key"),
     (.vflags "KeyboardModifiers" m, "modifiers"),
     (.vstr txt, "text"),
     (.vbool ar, "isAutoRepeat"),
     (.vint c, "count")]
  | .move p op =>
    [(.vpoint "QPoint" p.1 p.2, "pos"),
     (.vpoint "QPoint" op.1 op.2, "oldPos")]
  | .close => []

/-- The argument loop of `serialize_event`: each value is serialized;
a `ValueError` is caught and replaced by the `0b0` sentinel with a
warning; a `KeyError` propagates (`none`). -/
def serializeArgs (env : QtEnv) : List (AttrVal × String) → Option (List PyTok)
  | [] => some []
  | (v, attr) :: rest =>
    match
      (match serializeValue env v attr with
       | .ok t => some t
       | .valueError => some .zeroSentinel
       | .keyError => none) with
    | none => none
    | some t => (serializeArgs env rest).map (t :: ·)

/-- The token for the leading `type` attribute:
`args.append('QtCore.' + cls._qenum_key(QtCore.QEvent, event.type()))`.
An unnamed type code yields the malformed name `QtCore.` exactly as the
source would emit it. -/
def typeTok (env : QtEnv) (t : Nat) : PyTok :=
  match (env.eventTypeDict.find? fun e => e.2 == t).map (·.1) with
  | some n => .qname ["QtCore", "QEvent", n]
  | none => .qname ["QtCore", ""]

/-- `Resolver.serialize_event` (src/pyqttester.py lines 512-537) for the
four first-class kinds; `none` models the uncaught `KeyError` from
`QT_KEYS`. -/
def serialize_event (env : QtEnv) (e : QtEvent) : Option SerEvent :=
  match e with
  | .mouse t _ _ _ _ _ =>
    (serializeArgs env e.restAttrs).map fun args => ⟨"QMouseEvent", typeTok env t :: args⟩
  | .keyev t _ _ _ _ _ =>
    (serializeArgs env e.restAttrs).map fun args => ⟨"QKeyEvent", typeTok env t :: args⟩
  | .move _ _ =>
    (serializeArgs env e.restAttrs).map fun args => ⟨"QMoveEvent", args⟩
  | .close => some ⟨"QCloseEvent", []⟩

/-- Evaluation of a dotted name token, as Python's `eval` resolves it in
the module globals (`QtCore`, `Qt` in scope): `QtCore.QEvent.<key>` via
the event-type reflection, `Qt.<key>` via the namespace dict. -/
def evalQtName (env : QtEnv) : List String → Option Nat
  | ["QtCore", "QEvent", n] => (env.eventTypeDict.find? fun e => e.1 == n).map (·.2)
  | ["Qt", n] => (env.qtDict.find? fun e => e.1 == n).map (·.2.2)
  | _ => none

/-- `eval` of one argument token in an integer
(enum/flags/key/count) position: a dotted name resolves through the
namespace, `a|b|...` folds bitwise or left-to-right, an int literal and
the `0b0` sentinel are themselves. -/
def decodeEnumTok (env : QtEnv) : PyTok → Option Nat
  | .qname ps => evalQtName env ps
  | .orNames [] => none
  | .orNames (n :: ns) =>
    match (env.qtDict.find? fun e => e.1 == n).map (·.2.2) with
    | none => none
    | some v0 =>
      ns.foldlM
        (fun acc nm => ((env.qtDict.find? fun e => e.1 == nm).map (·.2.2)).map (acc ||| ·))
        v0
  | .intLit n => some n
  | .zeroSentinel => some 0
  | _ => none

/-- `eval` of a `QtCore.QPoint(x, y)` argument token. -/
def decodePointTok : PyTok → Option (Int × Int)
  | .pointLit _ x y => some (x, y)
  | _ => none

def decodeStrTok : PyTok → Option String
  | .strLit s => some s
  | _ => none

def decodeBoolTok : PyTok → Option Bool
  | .boolLit b => some b
  | _ => none

/-- `Resolver.deserialize_event` (src/pyqttester.py lines 539-544):
`eval('QtGui.' + event_str)` — look the constructor up by class name and
apply it to the evaluated arguments; any failure (unknown class, arity
mismatch, unresolvable name) is an exception, modelled `none`. -/
def deserialize_event (env : QtEnv) (se : SerEvent) : Option QtEvent :=
  match se.className, se.args with
  | "QMouseEvent", [t, p, g, b, bs, m] => do
    let tv ← decodeEnumTok env t
    let pv ← decodePointTok p
    let gv ← decodePointTok g
    let bv ← decodeEnumTok env b
    let bsv ← decodeEnumTok env bs
    let mv ← decodeEnumTok env m
    pure (.mouse tv pv gv bv bsv mv)
  | "QKeyEvent", [t, k, m, txt, ar, c] => do
    let tv ← decodeEnumTok env t
    let kv ← decodeEnumTok env k
    let mv ← decodeEnumTok env m
    let txtv ← decodeStrTok txt
    let arv ← decodeBoolTok ar
    let cv ← decodeEnumTok env c
    pure (.keyev tv kv mv txtv arv cv)
  | "QMoveEvent", [p, op] => do
    let pv ← decodePointTok p
    let opv ← decodePointTok op
    pure (.move pv opv)
  | "QCloseEvent", [] => pure .close
  | _, _ => none

/-- Well-formedness of the reflection environment: attribute names are
unique in both namespaces (true of any Python class `__dict__`). -/
def QtEnv.Wf (env : QtEnv) : Prop :=
  (env.qtDict.map (·.1)).Nodup ∧ (env.eventTypeDict.map (·.1)).Nodup

/-- The event type code has a reflected key name. -/
def eventTypeNamed (env : QtEnv) (t : Nat) : Bool :=
  (env.eventTypeDict.find? fun e => e.2 == t).isSome

/-- The value is a named constant of the given enum class in `Qt.__dict__`. -/
def namedEnum (env : QtEnv) (cls : String) (v : Nat) : Bool :=
  (env.qtDict.find? fun e => e.2.1 == cls && e.2.2 == v).isSome

/-- The key code appears in `QT_KEYS`. -/
def keyNamed (env : QtEnv) (k : Nat) : Bool :=
  (qtKeys env k).isSome

/-- A fuelled, kernel-reducible `Nat.log2` (the library definition uses
well-founded recursion, which `decide` cannot evaluate). -/
def log2Fuel : Nat → Nat → Nat
  | 0, _ => 0
  | f + 1, n => if n ≥ 2 then log2Fuel f (n / 2) + 1 else 0

def natLog2 (n : Nat) : Nat := log2Fuel n n

theorem log2Fuel_eq : ∀ (f n : Nat), n ≤ f → log2Fuel f n = Nat.log2 n := by
  intro f
  induction f with
  | zero =>
    intro n hn
    have h0 : n = 0 := by omega
    subst h0
    simp [log2Fuel, Nat.log2]
  | succ f ih =>
    intro n hn
    show (if n ≥ 2 then log2Fuel f (n / 2) + 1 else 0) = Nat.log2 n
    by_cases h2 : 2 ≤ n
    · rw [if_pos h2, ih (n / 2) (by omega)]
      conv_rhs => rw [Nat.log2]
      rw [if_pos h2]
    · rw [if_neg h2]
      conv_rhs => rw [Nat.log2]
      rw [if_neg h2]

theorem natLog2_eq (n : Nat) : natLog2 n = Nat.log2 n := log2Fuel_eq n n le_rfl

/-- Every set bit of the flags value (or the zero constant, for value 0)
has a name of the singular enum class. -/
def flagsNamed (env : QtEnv) (clsPlural : String) (v : Nat) : Bool :=
  let cls := if endsWithS clsPlural then clsPlural.dropRight 1 else clsPlural
  if v = 0 then namedEnum env cls 0
  else (List.range (natLog2 v + 1)).all fun i => !v.testBit i || namedEnum env cls (2 ^ i)

/-- The event's attribute values are all representable by the
reflection environment (the codec's documented domain; outside it the
source degrades to the `0b0` sentinel or aborts). -/
def representable (env : QtEnv) : QtEvent → Bool
  | .mouse t _ _ b bs m =>
    eventTypeNamed env t && namedEnum env "MouseButton" b &&
      flagsNamed env "MouseButtons" bs && flagsNamed env "KeyboardModifiers" m
  | .keyev t k m _ _ _ =>
    eventTypeNamed env t && keyNamed env k && flagsNamed env "KeyboardModifiers" m
  | .move _ _ => true
  | .close => true

/-! ### Codec lemmas: name lookup, flag decomposition, bit folding -/

theorem find_entry_by_name {α : Type} :
    ∀ (l : List (String × α)), (l.map (·.1)).Nodup →
      ∀ (n : String) (a : α), (n, a) ∈ l →
        l.find? (fun e => e.1 == n) = some (n, a) := by
  intro l
  induction l with
  | nil => intro _ n a hm; simp at hm
  | cons x xs ih =>
    intro hnd n a hm
    simp only [List.map_cons, List.nodup_cons] at hnd
    by_cases hx : x.1 = n
    · have hxa : x = (n, a) := by
        rcases List.mem_cons.mp hm with h | h
        · exact h.symm
        · have hin : n ∈ xs.map (·.1) := List.mem_map.mpr ⟨(n, a), h, rfl⟩
          exact absurd hin (hx ▸ hnd.1)
      rw [List.find?_cons_of_pos _ (by simp [hx]), hxa]
    · rw [List.find?_cons_of_neg _ (by simp [hx])]
      refine ih hnd.2 n a ?_
      rcases List.mem_cons.mp hm with h | h
      · exact absurd (by rw [← h]) hx
      · exact h

theorem qenumFindQt_entry (env : QtEnv) (cls : String) (v : Nat) (n : String)
    (h : qenumFindQt env cls v = some n) : (n, cls, v) ∈ env.qtDict := by
  unfold qenumFindQt at h
  cases hf : env.qtDict.find? (fun e => e.2.1 == cls && e.2.2 == v) with
  | none => rw [hf] at h; simp at h
  | some e =>
    rw [hf] at h
    simp at h
    have hp := List.find?_some hf
    have hm := List.mem_of_find?_eq_some hf
    obtain ⟨e1, e2, e3⟩ := e
    simp at hp h
    rw [← h, ← hp.1, ← hp.2]
    exact hm

theorem lookup_value_of_entry (env : QtEnv) (hnd : (env.qtDict.map (·.1)).Nodup)
    (n cls : String) (v : Nat) (hm : (n, cls, v) ∈ env.qtDict) :
    (env.qtDict.find? fun e => e.1 == n).map (·.2.2) = some v := by
  rw [find_entry_by_name env.qtDict hnd n (cls, v) hm]
  rfl

theorem lookup_of_qenumFind (env : QtEnv) (hnd : (env.qtDict.map (·.1)).Nodup)
    (cls : String) (v : Nat) (n : String) (h : qenumFindQt env cls v = some n) :
    (env.qtDict.find? fun e => e.1 == n).map (·.2.2) = some v :=
  lookup_value_of_entry env hnd n cls v (qenumFindQt_entry env cls v n h)

theorem qtKeysRaw_entry (env : QtEnv) (v : Nat) (nm : String)
    (h : qtKeysRaw env v = some nm) : ∃ cls, (nm, cls, v) ∈ env.qtDict := by
  unfold qtKeysRaw at h
  cases hf : (env.qtDict.filter fun e => startsWithKey e.1).reverse.find?
      (fun e => e.2.2 == v) with
  | none => rw [hf] at h; simp at h
  | some e =>
    rw [hf] at h
    simp at h
    have hp := List.find?_some hf
    have hm := List.mem_of_find?_eq_some hf
    rw [List.mem_reverse] at hm
    have hm2 := List.mem_of_mem_filter hm
    obtain ⟨e1, e2, e3⟩ := e
    simp at hp h
    exact ⟨e2, by rw [← h, ← hp]; exact hm2⟩

theorem lookup_of_qtKeysRaw (env : QtEnv) (hnd : (env.qtDict.map (·.1)).Nodup)
    (v : Nat) (nm : String) (h : qtKeysRaw env v = some nm) :
    (env.qtDict.find? fun e => e.1 == nm).map (·.2.2) = some v := by
  obtain ⟨cls, hm⟩ := qtKeysRaw_entry env v nm h
  exact lookup_value_of_entry env hnd nm cls v hm

theorem evtType_entry (env : QtEnv) (t : Nat) (n : String)
    (h : (env.eventTypeDict.find? fun e => e.2 == t).map (·.1) = some n) :
    (n, t) ∈ env.eventTypeDict := by
  cases hf : env.eventTypeDict.find? (fun e => e.2 == t) with
  | none => rw [hf] at h; simp at h
  | some e =>
    rw [hf] at h
    simp at h
    have hp := List.find?_some hf
    have hm := List.mem_of_find?_eq_some hf
    obtain ⟨e1, e2⟩ := e
    simp at hp h
    rw [← h, ← hp]
    exact hm

theorem lookup_evtType (env : QtEnv) (hnd : (env.eventTypeDict.map (·.1)).Nodup)
    (t : Nat) (n : String)
    (h : (env.eventTypeDict.find? fun e => e.2 == t).map (·.1) = some n) :
    (env.eventTypeDict.find? fun e => e.1 == n).map (·.2) = some t := by
  rw [find_entry_by_name env.eventTypeDict hnd n t (evtType_entry env t n h)]
  rfl

/-- Decoding the leading type token succeeds with the original type code
whenever the code is reflected and names are unique. -/
theorem decode_typeTok (env : QtEnv) (hnd : (env.eventTypeDict.map (·.1)).Nodup)
    (t : Nat) (hn : eventTypeNamed env t = true) :
    decodeEnumTok env (typeTok env t) = some t := by
  unfold eventTypeNamed at hn
  cases hf : env.eventTypeDict.find? (fun e => e.2 == t) with
  | none => rw [hf] at hn; simp at hn
  | some e =>
    unfold typeTok
    rw [hf]
    simp only [Option.map_some']
    show evalQtName env ["QtCore", "QEvent", e.1] = some t
    unfold evalQtName
    exact lookup_evtType env hnd t e.1 (by rw [hf]; rfl)

/-- Closed form of the `while mask <= value` scan: the masks of the set
bits whose index falls below the fuel bound. -/
theorem qflagsMasks_eq (v : Nat) : ∀ (f k : Nat), qflagsMasks f (2 ^ k) v =
    (List.range f).filterMap fun i => if v.testBit (k + i) then some (2 ^ (k + i)) else none := by
  intro f
  induction f with
  | zero => intro k; rfl
  | succ f ih =>
    intro k
    by_cases hle : 2 ^ k ≤ v
    · show (if 2 ^ k ≤ v then
          (if v &&& 2 ^ k ≠ 0 then [2 ^ k] else []) ++ qflagsMasks f (2 * 2 ^ k) v
        else []) = _
      rw [if_pos hle, show 2 * 2 ^ k = 2 ^ (k + 1) from by ring, ih (k + 1),
        List.range_succ_eq_map, List.filterMap_cons, List.filterMap_map]
      have hfun : ((fun i => if v.testBit (k + i) then some (2 ^ (k + i)) else none) ∘ Nat.succ)
          = fun i => if v.testBit (k + 1 + i) then some (2 ^ (k + 1 + i)) else none := by
        funext i
        have harith : k + Nat.succ i = k + 1 + i := by omega
        simp only [Function.comp_apply, harith]
      rw [hfun]
      by_cases hb : v.testBit k
      · have hand : v &&& 2 ^ k ≠ 0 := by
          rw [Nat.and_two_pow, hb]
          simp
        rw [if_pos hand]
        simp [hb]
      · have hb2 : v.testBit k = false := by simpa using hb
        have hand : ¬(v &&& 2 ^ k ≠ 0) := by
          rw [Nat.and_two_pow, hb2]
          simp
        rw [if_neg hand]
        simp [hb2]
    · show (if 2 ^ k ≤ v then
          (if v &&& 2 ^ k ≠ 0 then [2 ^ k] else []) ++ qflagsMasks f (2 * 2 ^ k) v
        else []) = _
      rw [if_neg hle]
      symm
      rw [List.filterMap_eq_nil_iff]
      intro i _
      have hvlt : v < 2 ^ (k + i) :=
        lt_of_lt_of_le (Nat.lt_of_not_le hle) (Nat.pow_le_pow_right (by norm_num) (Nat.le_add_right k i))
      simp [Nat.testBit_lt_two_pow hvlt]

theorem testBit_foldl_or :
    ∀ (l : List Nat) (acc j : Nat),
      (l.foldl (· ||| ·) acc).testBit j = (acc.testBit j || l.any (·.testBit j)) := by
  intro l
  induction l with
  | nil => intro acc j; simp
  | cons x xs ih =>
    intro acc j
    simp only [List.foldl_cons, List.any_cons]
    rw [ih, Nat.testBit_lor]
    cases acc.testBit j <;> cases x.testBit j <;> simp

/-- Folding bitwise-or over the ascending set-bit masks of `v`
reassembles `v`. -/
theorem foldl_or_masks (v : Nat) :
    (((List.range (v + 1)).filterMap fun i =>
        if v.testBit i then some (2 ^ i) else none).foldl (· ||| ·) 0) = v := by
  apply Nat.eq_of_testBit_eq
  intro j
  rw [testBit_foldl_or]
  simp only [Nat.zero_testBit, Bool.false_or]
  cases hb : v.testBit j with
  | true =>
    have h1 := Nat.lt_two_pow j
    have h2 := Nat.testBit_implies_ge hb
    rw [List.any_eq_true]
    exact ⟨2 ^ j,
      List.mem_filterMap.mpr ⟨j, List.mem_range.mpr (by omega), by rw [if_pos hb]⟩,
      by simp [Nat.testBit_two_pow_self]⟩
  | false =>
    rw [List.any_eq_false]
    intro a ha
    obtain ⟨i, _, hfi⟩ := List.mem_filterMap.mp ha
    by_cases hti : v.testBit i
    · rw [if_pos hti] at hfi
      obtain rfl : (2 : Nat) ^ i = a := by simpa using hfi
      have hij : i ≠ j := fun h => by rw [h] at hti; simp [hb] at hti
      simp [Nat.testBit_two_pow_of_ne hij]
    · rw [if_neg hti] at hfi; simp at hfi

theorem foldlM_or_lookup (env : QtEnv) :
    ∀ (ns : List String) (vs : List Nat) (acc : Nat),
      List.Forall₂ (fun n v => (env.qtDict.find? fun e => e.1 == n).map (·.2.2) = some v) ns vs →
      ns.foldlM
          (fun acc nm => ((env.qtDict.find? fun e => e.1 == nm).map (·.2.2)).map (acc ||| ·))
          acc
        = some (vs.foldl (· ||| ·) acc) := by
  intro ns
  induction ns with
  | nil => intro vs acc h; cases h; rfl
  | cons n ns ih =>
    intro vs acc h
    cases h with
    | cons hnv htail =>
      rw [List.foldlM_cons, hnv]
      simp only [Option.map_some', Option.some_bind, List.foldl_cons]
      exact ih _ _ htail

/-- Evaluating a `|`-joined list of names whose lookups are known folds
to the bitwise or of the values. -/
theorem decode_orNames (env : QtEnv) (ns : List String) (vs : List Nat)
    (h : List.Forall₂ (fun n v =>
      (env.qtDict.find? fun e => e.1 == n).map (·.2.2) = some v) ns vs)
    (hne : ns ≠ []) :
    decodeEnumTok env (.orNames ns) = some (vs.foldl (· ||| ·) 0) := by
  cases h with
  | nil => exact absurd rfl hne
  | @cons n v ns2 vs2 hnv htail =>
    show decodeEnumTok env (.orNames (n :: ns2)) = _
    simp only [decodeEnumTok, hnv, List.foldl_cons, Nat.zero_or]
    exact foldlM_or_lookup env ns2 vs2 v htail

theorem forall2_filterMap_lookup (env : QtEnv) (hnd : (env.qtDict.map (·.1)).Nodup)
    (cls : String) :
    ∀ (ms : List Nat), (∀ m ∈ ms, (qenumFindQt env cls m).isSome) →
      List.Forall₂ (fun n v => (env.qtDict.find? fun e => e.1 == n).map (·.2.2) = some v)
        (ms.filterMap fun m => qenumFindQt env cls m) ms := by
  intro ms
  induction ms with
  | nil => intro _; simp
  | cons m ms ih =>
    intro hall
    have hm := hall m (by simp)
    cases hfind : qenumFindQt env cls m with
    | none => rw [hfind] at hm; simp at hm
    | some n =>
      rw [List.filterMap_cons, hfind]
      exact List.Forall₂.cons (lookup_of_qenumFind env hnd cls m n hfind)
        (ih fun x hx => hall x (by simp [hx]))

/-- Round trip of the flags value: for a flags value all of whose set
bits (or the zero constant) are named, `_serialize_value`'s flags leg
emits the `|`-joined key list, and evaluating that list yields the
original value back. -/
theorem flags_roundtrip (env : QtEnv) (hnd : (env.qtDict.map (·.1)).Nodup)
    (clsPlural : String) (v : Nat) (hrep : flagsNamed env clsPlural v = true) :
    serializeFlagsValue env clsPlural v = .ok (.orNames (qflagsRawNames env clsPlural v)) ∧
    decodeEnumTok env (.orNames (qflagsRawNames env clsPlural v)) = some v := by
  unfold flagsNamed at hrep
  rw [natLog2_eq] at hrep
  by_cases hv : v = 0
  · subst hv
    rw [if_pos rfl] at hrep
    unfold namedEnum at hrep
    have hfind : ∃ n, qenumFindQt env
        (if endsWithS clsPlural then clsPlural.dropRight 1 else clsPlural) 0 = some n := by
      unfold qenumFindQt
      cases hf : env.qtDict.find? (fun e =>
          e.2.1 == (if endsWithS clsPlural then clsPlural.dropRight 1 else clsPlural) &&
          e.2.2 == 0) with
      | none => rw [hf] at hrep; simp at hrep
      | some e => exact ⟨e.1, rfl⟩
    obtain ⟨n, hn⟩ := hfind
    have hraw : qflagsRawNames env clsPlural 0 = [n] := by
      unfold qflagsRawNames
      rw [if_pos rfl, hn]
    have hlook := lookup_of_qenumFind env hnd _ 0 n hn
    constructor
    · unfold serializeFlagsValue
      rw [hraw]
    · rw [hraw]
      simp only [decodeEnumTok, hlook]
      rfl
  · rw [if_neg hv] at hrep
    have hmask : qflagsMasks (v + 1) 1 v =
        (List.range (v + 1)).filterMap fun i =>
          if v.testBit i then some (2 ^ i) else none := by
      have h0 := qflagsMasks_eq v (v + 1) 0
      simpa using h0
    have hnamed : ∀ m ∈ qflagsMasks (v + 1) 1 v,
        (qenumFindQt env
          (if endsWithS clsPlural then clsPlural.dropRight 1 else clsPlural) m).isSome := by
      intro m hm
      rw [hmask] at hm
      obtain ⟨i, _, hfi⟩ := List.mem_filterMap.mp hm
      by_cases hti : v.testBit i
      · rw [if_pos hti] at hfi
        obtain rfl : (2 : Nat) ^ i = m := by simpa using hfi
        have hge := Nat.testBit_implies_ge hti
        have hilog : i ≤ Nat.log2 v := (Nat.le_log2 hv).mpr hge
        have hinst := (List.all_eq_true.mp hrep) i (List.mem_range.mpr (by omega))
        simp only [hti, Bool.not_true, Bool.false_or] at hinst
        unfold namedEnum at hinst
        unfold qenumFindQt
        cases hf : env.qtDict.find? (fun e =>
            e.2.1 == (if endsWithS clsPlural then clsPlural.dropRight 1 else clsPlural) &&
            e.2.2 == 2 ^ i) with
        | none => rw [hf] at hinst; simp at hinst
        | some e => rfl
      · rw [if_neg hti] at hfi; simp at hfi
    obtain ⟨i0, hti0⟩ : ∃ i, v.testBit i = true := by
      by_contra hno
      push_neg at hno
      exact hv (Nat.eq_of_testBit_eq fun i => by
        simp [(Bool.not_eq_true _).mp (hno i)])
    have hi0lt : i0 < v + 1 := by
      have h1 := Nat.lt_two_pow i0
      have h2 := Nat.testBit_implies_ge hti0
      omega
    have hmaskmem : (2 : Nat) ^ i0 ∈ qflagsMasks (v + 1) 1 v := by
      rw [hmask]
      exact List.mem_filterMap.mpr ⟨i0, List.mem_range.mpr hi0lt, by rw [if_pos hti0]⟩
    have hraw_ne : qflagsRawNames env clsPlural v ≠ [] := by
      unfold qflagsRawNames
      rw [if_neg hv]
      intro hnil
      have hsome := hnamed _ hmaskmem
      cases hf : qenumFindQt env
          (if endsWithS clsPlural then clsPlural.dropRight 1 else clsPlural) (2 ^ i0) with
      | none => rw [hf] at hsome; simp at hsome
      | some n =>
        have : n ∈ (qflagsMasks (v + 1) 1 v).filterMap fun m =>
            qenumFindQt env
              (if endsWithS clsPlural then clsPlural.dropRight 1 else clsPlural) m :=
          List.mem_filterMap.mpr ⟨2 ^ i0, hmaskmem, hf⟩
        rw [hnil] at this
        simp at this
    have hforall := forall2_filterMap_lookup env hnd
      (if endsWithS clsPlural then clsPlural.dropRight 1 else clsPlural)
      (qflagsMasks (v + 1) 1 v) hnamed
    have hraw_eq : qflagsRawNames env clsPlural v =
        (qflagsMasks (v + 1) 1 v).filterMap fun m =>
          qenumFindQt env
            (if endsWithS clsPlural then clsPlural.dropRight 1 else clsPlural) m := by
      unfold qflagsRawNames
      rw [if_neg hv]
    constructor
    · unfold serializeFlagsValue
      cases hr : qflagsRawNames env clsPlural v with
      | nil => exact absurd hr hraw_ne
      | cons a l => rfl
    · rw [hraw_eq]
      rw [decode_orNames env _ _ hforall (by rw [← hraw_eq]; exact hraw_ne)]
      rw [hmask, foldl_or_masks v]

theorem filterMap_range_single {α : Type} :
    ∀ (N : Nat) (i : Nat) (f : Nat → Option α) (a : α), i < N → f i = some a →
      (∀ k, k < N → k ≠ i → f k = none) →
      (List.range N).filterMap f = [a] := by
  intro N
  induction N with
  | zero => intro i f a hiN; omega
  | succ N ih =>
    intro i f a hiN hfi hother
    rw [List.range_succ, List.filterMap_append]
    by_cases hNi : N = i
    · subst hNi
      have hpre : (List.range N).filterMap f = [] := by
        rw [List.filterMap_eq_nil_iff]
        intro k hk
        exact hother k (by simp at hk; omega) (by simp at hk; omega)
      rw [hpre]
      simp [hfi]
    · have hlast : f N = none := hother N (by omega) hNi
      rw [ih i f a (by omega) hfi (fun k hk hki => hother k (by omega) hki)]
      simp [hlast]

theorem filterMap_range_pair {α : Type} :
    ∀ (N : Nat) (i j : Nat) (f : Nat → Option α) (a b : α), i < j → j < N →
      f i = some a → f j = some b → (∀ k, k ≠ i → k ≠ j → f k = none) →
      (List.range N).filterMap f = [a, b] := by
  intro N
  induction N with
  | zero => intro i j f a b hij hjN; omega
  | succ N ih =>
    intro i j f a b hij hjN hfi hfj hother
    rw [List.range_succ, List.filterMap_append]
    by_cases hNj : N = j
    · subst hNj
      rw [filterMap_range_single N i f a hij hfi
        (fun k hk hki => hother k hki (by omega))]
      simp [hfj]
    · have hlast : f N = none := hother N (by omega) hNj
      rw [ih i j f a b hij (by omega) hfi hfj hother]
      simp [hlast]

theorem namedEnum_some (env : QtEnv) (cls : String) (v : Nat)
    (h : namedEnum env cls v = true) : ∃ n, qenumFindQt env cls v = some n := by
  unfold namedEnum at h
  unfold qenumFindQt
  cases hf : env.qtDict.find? (fun e => e.2.1 == cls && e.2.2 == v) with
  | none => rw [hf] at h; simp at h
  | some e => exact ⟨e.1, rfl⟩

theorem keyNamed_some (env : QtEnv) (k : Nat)
    (h : keyNamed env k = true) : ∃ nm, qtKeysRaw env k = some nm := by
  unfold keyNamed qtKeys at h
  cases hf : qtKeysRaw env k with
  | none => rw [hf] at h; simp at h
  | some nm => exact ⟨nm, rfl⟩

theorem decode_qname_lookup (env : QtEnv) (n : String) (v : Nat)
    (h : (env.qtDict.find? fun e => e.1 == n).map (·.2.2) = some v) :
    decodeEnumTok env (.qname ["Qt", n]) = some v := by
  show evalQtName env ["Qt", n] = some v
  simp only [evalQtName]
  exact h

theorem decode_intLit (env : QtEnv) (n : Nat) :
    decodeEnumTok env (.intLit n) = some n := rfl

/-- C2: for every event of a first-class-supported kind (QMouseEvent,
QKeyEvent, QMoveEvent, QCloseEvent) whose attribute values fall in the
codec's representable domain (event type reflected, button/key named,
every set flags bit named) and with unique reflection names,
`deserialize_event (serialize_event e)` reconstructs an event all of whose
declared attributes equal `e`'s (in the model, the event itself). -/
theorem event_codec_roundtrip (env : QtEnv) (hwf : env.Wf) (e : QtEvent)
    (hrep : representable env e = true) :
    (serialize_event env e).bind (deserialize_event env) = some e := by
  obtain ⟨hnd1, hnd2⟩ := hwf
  cases e with
  | close => rfl
  | move p op =>
    obtain ⟨px, py⟩ := p
    obtain ⟨ox, oy⟩ := op
    rfl
  | mouse t p g b bs m =>
    obtain ⟨px, py⟩ := p
    obtain ⟨gx, gy⟩ := g
    simp only [representable, Bool.and_eq_true] at hrep
    obtain ⟨⟨⟨ht, hb⟩, hbs⟩, hm⟩ := hrep
    obtain ⟨nb, hnb⟩ := namedEnum_some env "MouseButton" b hb
    have hfb := flags_roundtrip env hnd1 "MouseButtons" bs hbs
    have hfm := flags_roundtrip env hnd1 "KeyboardModifiers" m hm
    have hdb := decode_qname_lookup env nb b (lookup_of_qenumFind env hnd1 _ b nb hnb)
    have hdt := decode_typeTok env hnd2 t ht
    simp [serialize_event, QtEvent.restAttrs, serializeArgs, serializeValue, hnb,
      hfb.1, hfm.1, deserialize_event, hdt, hdb, hfb.2, hfm.2, decodePointTok,
      show endsWithS "MouseButtons" = true from by decide,
      show endsWithS "KeyboardModifiers" = true from by decide]
  | keyev t k m txt ar c =>
    simp only [representable, Bool.and_eq_true] at hrep
    obtain ⟨⟨ht, hk⟩, hm⟩ := hrep
    obtain ⟨nk, hnk⟩ := keyNamed_some env k hk
    have hfm := flags_roundtrip env hnd1 "KeyboardModifiers" m hm
    have hdk := decode_qname_lookup env nk k (lookup_of_qtKeysRaw env hnd1 k nk hnk)
    have hdt := decode_typeTok env hnd2 t ht
    simp [serialize_event, QtEvent.restAttrs, serializeArgs, serializeValue, hnk,
      hfm.1, deserialize_event, hdt, hdk, hfm.2, decode_intLit, decodeStrTok,
      decodeBoolTok, show endsWithS "KeyboardModifiers" = true from by decide]

/-- A miniature reflection environment with the standard Qt names the
generic theorems are instantiated at. -/
def miniQt : QtEnv where
  qtDict :=
    [("LeftButton", "MouseButton", 1), ("RightButton", "MouseButton", 2),
     ("NoButton", "MouseButton", 0),
     ("NoModifier", "KeyboardModifier", 0),
     ("ShiftModifier", "KeyboardModifier", 33554432),
     ("Key_A", "Key", 65)]
  eventTypeDict :=
    [("MouseButtonPress", 2), ("KeyPress", 6), ("Move", 13), ("Close", 19)]

theorem event_codec_roundtrip_witness :
    (serialize_event miniQt
        (.mouse 2 (3, 4) (5, 6) 1 3 33554432)).bind (deserialize_event miniQt) =
      some (.mouse 2 (3, 4) (5, 6) 1 3 33554432) :=
  event_codec_roundtrip miniQt ⟨by decide, by decide⟩
    (.mouse 2 (3, 4) (5, 6) 1 3 33554432) (by decide)

/-- C3: combining two distinct named single-bit values A (mask `2^i`) and
B (mask `2^j`, `i < j`) serializes to the string `Qt.A|Qt.B` in ascending
mask order, independently of the order the bits were or-ed in; value `0`
serializes to the single zero-constant name; and evaluating the emitted
key list back (the decomposition's inverse) returns the original value. -/
theorem qflags_key_ascending (env : QtEnv) (hwf : env.Wf) (clsPlural : String)
    (i j : Nat) (hij : i < j) (A B Z : String)
    (hA : qenumFindQt env
      (if endsWithS clsPlural then clsPlural.dropRight 1 else clsPlural) (2 ^ i) = some A)
    (hB : qenumFindQt env
      (if endsWithS clsPlural then clsPlural.dropRight 1 else clsPlural) (2 ^ j) = some B)
    (hZ : qenumFindQt env
      (if endsWithS clsPlural then clsPlural.dropRight 1 else clsPlural) 0 = some Z) :
    qflagsKey env clsPlural (2 ^ i ||| 2 ^ j) = "Qt." ++ A ++ "|" ++ ("Qt." ++ B) ∧
    qflagsKey env clsPlural (2 ^ j ||| 2 ^ i) = qflagsKey env clsPlural (2 ^ i ||| 2 ^ j) ∧
    qflagsKey env clsPlural 0 = "Qt." ++ Z ∧
    decodeEnumTok env (.orNames (qflagsRawNames env clsPlural (2 ^ i ||| 2 ^ j))) =
      some (2 ^ i ||| 2 ^ j) := by
  obtain ⟨hnd1, _⟩ := hwf
  have hvpos : (2 : Nat) ^ i ||| 2 ^ j ≠ 0 := by
    intro h0
    have : ((2 : Nat) ^ i ||| 2 ^ j).testBit i = false := by rw [h0]; simp
    rw [Nat.testBit_lor, Nat.testBit_two_pow_self] at this
    simp at this
  have htb : ∀ n, ((2 : Nat) ^ i ||| 2 ^ j).testBit n = (decide (n = i) || decide (n = j)) := by
    intro n
    rw [Nat.testBit_lor]
    by_cases hni : n = i
    · subst hni; simp [Nat.testBit_two_pow_self]
    · by_cases hnj : n = j
      · subst hnj; simp [Nat.testBit_two_pow_self, hni]
      · simp [Nat.testBit_two_pow_of_ne (Ne.symm hni), Nat.testBit_two_pow_of_ne (Ne.symm hnj),
          hni, hnj]
  have hjlt : j < (2 ^ i ||| 2 ^ j) + 1 := by
    have h2 : ((2 : Nat) ^ i ||| 2 ^ j).testBit j = true := by simp [htb]
    have h3 := Nat.testBit_implies_ge h2
    have h4 := Nat.lt_two_pow j
    omega
  have hmask : qflagsMasks ((2 ^ i ||| 2 ^ j) + 1) 1 (2 ^ i ||| 2 ^ j) = [2 ^ i, 2 ^ j] := by
    have h0 := qflagsMasks_eq (2 ^ i ||| 2 ^ j) ((2 ^ i ||| 2 ^ j) + 1) 0
    simp only [pow_zero, Nat.zero_add] at h0
    rw [h0]
    apply filterMap_range_pair _ i j _ _ _ hij hjlt
    · rw [if_pos (by simp [htb])]
    · rw [if_pos (by simp [htb])]
    · intro n hni hnj
      rw [if_neg (by simp [htb, hni, hnj])]
  have hraw : qflagsRawNames env clsPlural (2 ^ i ||| 2 ^ j) = [A, B] := by
    unfold qflagsRawNames
    rw [if_neg hvpos, hmask]
    simp [List.filterMap_cons, hA, hB]
  have hrawZ : qflagsRawNames env clsPlural 0 = [Z] := by
    unfold qflagsRawNames
    rw [if_pos rfl, hZ]
  refine ⟨?_, ?_, ?_, ?_⟩
  · unfold qflagsKey
    rw [hraw]
    simp [String.intercalate, String.intercalate.go]
  · rw [Nat.lor_comm]
  · unfold qflagsKey
    rw [hrawZ]
    simp [String.intercalate, String.intercalate.go]
  · rw [hraw]
    have hlA := lookup_of_qenumFind env hnd1 _ _ A hA
    have hlB := lookup_of_qenumFind env hnd1 _ _ B hB
    apply decode_orNames env [A, B] [2 ^ i, 2 ^ j]
      (List.Forall₂.cons hlA (List.Forall₂.cons hlB List.Forall₂.nil)) (by simp)
      |>.trans
    congr 1
    simp only [List.foldl_cons, List.foldl_nil, Nat.zero_or]

theorem qflags_key_ascending_witness :
    qflagsKey miniQt "MouseButtons" (2 ^ 0 ||| 2 ^ 1) = "Qt.LeftButton|Qt.RightButton" ∧
    qflagsKey miniQt "MouseButtons" (2 ^ 1 ||| 2 ^ 0) =
      qflagsKey miniQt "MouseButtons" (2 ^ 0 ||| 2 ^ 1) ∧
    qflagsKey miniQt "MouseButtons" 0 = "Qt.NoButton" ∧
    decodeEnumTok miniQt (.orNames (qflagsRawNames miniQt "MouseButtons" (2 ^ 0 ||| 2 ^ 1))) =
      some (2 ^ 0 ||| 2 ^ 1) := by
  have h := qflags_key_ascending miniQt ⟨by decide, by decide⟩ "MouseButtons" 0 1
    (by decide) "LeftButton" "RightButton" "NoButton" (by decide) (by decide) (by decide)
  exact h

/-! ### Object registry and Resolver state (src/pyqttester.py lines 358-691) -/

/-- Association-list model of a Python dict, first match wins (our
inserts keep keys unique, so this agrees with dict semantics). -/
def dlookup {α β : Type} [DecidableEq α] : List (α × β) → α → Option β
  | [], _ => none
  | (k, v) :: d, key => if key = k then some v else dlookup d key

/-- Python `d[k] = v`: overwrite in place if the key exists, else append. -/
def dinsert {α β : Type} [DecidableEq α] (d : List (α × β)) (k : α) (v : β) :
    List (α × β) :=
  if (dlookup d k).isSome then d.map fun e => if e.1 = k then (k, v) else e
  else d ++ [(k, v)]

/-- `Resolver.IdentityMapper` vs. the shared `obj_cache` dict
(src/pyqttester.py lines 360-365): `id_obj_map` is the identity mapper
exactly when the Resolver was constructed with `obj_cache = None`. -/
inductive IdMapper where
  | identity
  | table (d : List (Nat × ObjPath))
deriving DecidableEq

/-- A scenario event's first component: an integer id (format ≥ 1) or,
in a legacy format-0 scenario, the inline `ObjectPath` itself. -/
inductive ObjKey where
  | intId (n : Nat)
  | inline (p : ObjPath)
deriving DecidableEq

/-- `self.id_obj_map[obj_id]` as used by `setstate`/`print_state`:
the IdentityMapper returns the key unchanged (so a format-0 inline path
is used directly); a dict raises `KeyError` for a missing id (modelled
`none`, replay crashes); an integer id run through the identity mapper
stays an integer, on which `deserialize_object` would raise
(modelled `none`). -/
def IdMapper.lookupPath : IdMapper → ObjKey → Option ObjPath
  | .identity, .inline p => some p
  | .identity, .intId _ => none
  | .table d, .intId n => dlookup d n
  | .table _, .inline _ => none

/-- The mutable registry state of one `Resolver`
(src/pyqttester.py lines 364-367): `obj_id_map` dict, `id_obj_map`
(shared cache or identity), and `autoinc = count(1)` modelled by the
next value it will yield. -/
structure RState where
  obj_id_map : List (ObjPath × Nat)
  id_obj_map : IdMapper
  autoinc : Nat
deriving DecidableEq

/-- The state of the Resolver a fresh `EventRecorder` constructs
(src/pyqttester.py lines 728-732: `obj_cache = {}`). -/
def freshRState : RState := ⟨[], .table [], 1⟩

/-- `Resolver.getstate(obj, event)` (src/pyqttester.py lines 652-667).
Outer `none`: the call does not return (the serialize loop diverges, a
`KeyError` escapes `serialize_event`, or item assignment on an
IdentityMapper raises).  Inner `none`: the object path was empty and the
event is skipped, state unchanged.  Otherwise the `(obj_id, event_str)`
pair and the updated registry. -/
def getstate (a : App) (env : QtEnv) (fuel : Nat) (st : RState) (obj : Nat)
    (ev : QtEvent) : Option (Option (Nat × SerEvent) × RState) :=
  match serializeObject a fuel obj with
  | none => none
  | some [] => some (none, st)
  | some p =>
    match serialize_event env ev with
    | none => none
    | some es =>
      match dlookup st.obj_id_map p with
      | some i => some (some (i, es), st)
      | none =>
        match st.id_obj_map with
        | .identity => none
        | .table d =>
          some (some (st.autoinc, es),
            ⟨dinsert st.obj_id_map p st.autoinc,
             .table (dinsert d st.autoinc p),
             st.autoinc + 1⟩)

/-- A sequence of `getstate` calls on one Resolver, collecting each
call's return value; `none` as soon as one call crashes or diverges. -/
def runCalls (a : App) (env : QtEnv) (fuel : Nat) :
    RState → List (Nat × QtEvent) → Option (List (Option (Nat × SerEvent)) × RState)
  | st, [] => some ([], st)
  | st, (obj, ev) :: rest =>
    match getstate a env fuel st obj ev with
    | none => none
    | some (out, st2) =>
      match runCalls a env fuel st2 rest with
      | none => none
      | some (outs, st3) => some (out :: outs, st3)

/-- The paths of the calls that produce a registry entry, in call order. -/
def seenPaths (a : App) (fuel : Nat) (calls : List (Nat × QtEvent)) : List ObjPath :=
  calls.filterMap fun c =>
    match serializeObject a fuel c.1 with
    | none => none
    | some [] => none
    | some p => some p

/-- Distinct elements in order of first appearance, seeded with `acc`. -/
def firstSeen : List ObjPath → List ObjPath → List ObjPath
  | acc, [] => acc
  | acc, p :: ps => if p ∈ acc then firstSeen acc ps else firstSeen (acc ++ [p]) ps

/-- The forward registry holding `ps` with ids `base, base+1, ...`. -/
def mkMap : List ObjPath → Nat → List (ObjPath × Nat)
  | [], _ => []
  | p :: ps, base => (p, base) :: mkMap ps (base + 1)

/-- The reverse registry (the shared `obj_cache`). -/
def mkMapRev : List ObjPath → Nat → List (Nat × ObjPath)
  | [], _ => []
  | p :: ps, base => (base, p) :: mkMapRev ps (base + 1)

/-! ### Registry lemmas -/

theorem dlookup_append_left {α β : Type} [DecidableEq α] :
    ∀ (d e : List (α × β)) (k : α) (v : β), dlookup d k = some v →
      dlookup (d ++ e) k = some v := by
  intro d
  induction d with
  | nil => intro e k v h; simp [dlookup] at h
  | cons x xs ih =>
    intro e k v h
    obtain ⟨xk, xv⟩ := x
    simp only [dlookup] at h
    simp only [List.cons_append, dlookup]
    by_cases hk : k = xk
    · simpa [hk] using h
    · rw [if_neg hk] at h ⊢
      exact ih e k v h

theorem dlookup_append_none {α β : Type} [DecidableEq α] :
    ∀ (d : List (α × β)) (k : α) (v : β), dlookup d k = none →
      dlookup (d ++ [(k, v)]) k = some v := by
  intro d
  induction d with
  | nil => intro k v _; simp [dlookup]
  | cons x xs ih =>
    intro k v h
    obtain ⟨xk, xv⟩ := x
    simp only [dlookup] at h
    simp only [List.cons_append, dlookup]
    by_cases hk : k = xk
    · simp [hk] at h
    · rw [if_neg hk] at h ⊢
      exact ih k v h

theorem dinsert_fresh {α β : Type} [DecidableEq α] (d : List (α × β)) (k : α) (v : β)
    (h : dlookup d k = none) : dinsert d k v = d ++ [(k, v)] := by
  unfold dinsert
  rw [h]
  rfl

theorem mkMap_lookup_none : ∀ (ps : List ObjPath) (b : Nat) (p : ObjPath),
    p ∉ ps → dlookup (mkMap ps b) p = none := by
  intro ps
  induction ps with
  | nil => intro b p _; rfl
  | cons q qs ih =>
    intro b p hp
    unfold mkMap dlookup
    rw [if_neg (by intro h; exact hp (by simp [h]))]
    exact ih (b + 1) p fun h => hp (by simp [h])

theorem mkMap_lookup_mem : ∀ (ps : List ObjPath) (b : Nat) (p : ObjPath),
    p ∈ ps → ∃ i, dlookup (mkMap ps b) p = some i := by
  intro ps
  induction ps with
  | nil => intro b p h; simp at h
  | cons q qs ih =>
    intro b p hp
    unfold mkMap dlookup
    by_cases hpq : p = q
    · exact ⟨b, by rw [if_pos hpq]⟩
    · rw [if_neg hpq]
      exact ih (b + 1) p (by rcases List.mem_cons.mp hp with h | h; exact absurd h hpq; exact h)

theorem mkMap_lookup_ge : ∀ (ps : List ObjPath) (b : Nat) (p : ObjPath) (i : Nat),
    dlookup (mkMap ps b) p = some i → b ≤ i := by
  intro ps
  induction ps with
  | nil => intro b p i h; simp [mkMap, dlookup] at h
  | cons q qs ih =>
    intro b p i h
    unfold mkMap dlookup at h
    by_cases hpq : p = q
    · rw [if_pos hpq] at h
      simp at h
      omega
    · rw [if_neg hpq] at h
      have := ih (b + 1) p i h
      omega

theorem mkMapRev_lookup_ge : ∀ (ps : List ObjPath) (b i : Nat),
    b + ps.length ≤ i → dlookup (mkMapRev ps b) i = none := by
  intro ps
  induction ps with
  | nil => intro b i _; rfl
  | cons q qs ih =>
    intro b i hi
    unfold mkMapRev dlookup
    simp only [List.length_cons] at hi
    rw [if_neg (by omega)]
    exact ih (b + 1) i (by omega)

theorem mkMap_append (p : ObjPath) :
    ∀ (ps : List ObjPath) (b : Nat), mkMap (ps ++ [p]) b = mkMap ps b ++ [(p, b + ps.length)] := by
  intro ps
  induction ps with
  | nil => intro b; simp [mkMap]
  | cons q qs ih =>
    intro b
    show (q, b) :: mkMap (qs ++ [p]) (b + 1) = (q, b) :: (mkMap qs (b + 1) ++ _)
    rw [ih (b + 1), show b + 1 + qs.length = b + (qs.length + 1) from by omega]
    simp only [List.length_cons]

theorem mkMapRev_append (p : ObjPath) :
    ∀ (ps : List ObjPath) (b : Nat),
      mkMapRev (ps ++ [p]) b = mkMapRev ps b ++ [(b + ps.length, p)] := by
  intro ps
  induction ps with
  | nil => intro b; simp [mkMapRev]
  | cons q qs ih =>
    intro b
    show (b, q) :: mkMapRev (qs ++ [p]) (b + 1) = (b, q) :: (mkMapRev qs (b + 1) ++ _)
    rw [ih (b + 1), show b + 1 + qs.length = b + (qs.length + 1) from by omega]
    simp only [List.length_cons]

theorem mkMap_ids : ∀ (ps : List ObjPath) (b : Nat),
    (mkMap ps b).map Prod.snd = List.range' b ps.length := by
  intro ps
  induction ps with
  | nil => intro b; rfl
  | cons q qs ih =>
    intro b
    show (q, b).snd :: (mkMap qs (b + 1)).map Prod.snd = List.range' b (qs.length + 1)
    rw [ih (b + 1), List.range'_succ]

theorem mkMap_length : ∀ (ps : List ObjPath) (b : Nat), (mkMap ps b).length = ps.length := by
  intro ps
  induction ps with
  | nil => intro b; rfl
  | cons q qs ih => intro b; show (mkMap qs (b + 1)).length + 1 = _; rw [ih (b + 1)]; rfl

theorem mkMap_to_rev : ∀ (ps : List ObjPath) (b : Nat) (p : ObjPath) (i : Nat),
    dlookup (mkMap ps b) p = some i → dlookup (mkMapRev ps b) i = some p := by
  intro ps
  induction ps with
  | nil => intro b p i h; simp [mkMap, dlookup] at h
  | cons q qs ih =>
    intro b p i h
    unfold mkMap dlookup at h
    unfold mkMapRev dlookup
    by_cases hpq : p = q
    · rw [if_pos hpq] at h
      simp at h
      rw [if_pos h.symm, hpq]
    · rw [if_neg hpq] at h
      have hge := mkMap_lookup_ge qs (b + 1) p i h
      rw [if_neg (by omega)]
      exact ih (b + 1) p i h

theorem rev_to_mkMap : ∀ (ps : List ObjPath) (b : Nat) (p : ObjPath) (i : Nat),
    ps.Nodup → dlookup (mkMapRev ps b) i = some p → dlookup (mkMap ps b) p = some i := by
  intro ps
  induction ps with
  | nil => intro b p i _ h; simp [mkMapRev, dlookup] at h
  | cons q qs ih =>
    intro b p i hnd h
    simp only [List.nodup_cons] at hnd
    unfold mkMapRev dlookup at h
    unfold mkMap dlookup
    by_cases hib : i = b
    · rw [if_pos hib] at h
      simp at h
      rw [if_pos h.symm, hib]
    · rw [if_neg hib] at h
      have hrec := ih (b + 1) p i hnd.2 h
      have hpmem : p ∈ qs := by
        by_contra hpm
        rw [mkMap_lookup_none qs (b + 1) p hpm] at hrec
        simp at hrec
      rw [if_neg (by intro hpq; exact hnd.1 (hpq ▸ hpmem))]
      exact hrec

theorem firstSeen_nodup : ∀ (ps acc : List ObjPath), acc.Nodup → (firstSeen acc ps).Nodup := by
  intro ps
  induction ps with
  | nil => intro acc h; exact h
  | cons p ps ih =>
    intro acc h
    unfold firstSeen
    by_cases hp : p ∈ acc
    · rw [if_pos hp]; exact ih acc h
    · rw [if_neg hp]
      exact ih (acc ++ [p]) (by simp [List.nodup_append, h, hp])

/-- Characterization of a run started from any registry state of the
canonical shape: the final state is the canonical state of the
first-seen path list. -/
theorem runCalls_reg (a : App) (env : QtEnv) (fuel : Nat) :
    ∀ (calls : List (Nat × QtEvent)) (ss : List ObjPath)
      (outs : List (Option (Nat × SerEvent))) (st : RState),
      runCalls a env fuel ⟨mkMap ss 1, .table (mkMapRev ss 1), ss.length + 1⟩ calls
        = some (outs, st) →
      st = ⟨mkMap (firstSeen ss (seenPaths a fuel calls)) 1,
            .table (mkMapRev (firstSeen ss (seenPaths a fuel calls)) 1),
            (firstSeen ss (seenPaths a fuel calls)).length + 1⟩ := by
  intro calls
  induction calls with
  | nil =>
    intro ss outs st hrun
    simp only [runCalls, Option.some.injEq, Prod.mk.injEq] at hrun
    simp only [seenPaths, List.filterMap_nil, firstSeen]
    exact hrun.2.symm
  | cons c rest ih =>
    intro ss outs st hrun
    obtain ⟨obj, ev⟩ := c
    unfold runCalls at hrun
    unfold getstate at hrun
    cases hser : serializeObject a fuel obj with
    | none => rw [hser] at hrun; simp at hrun
    | some p =>
      rw [hser] at hrun
      cases p with
      | nil =>
        have hseen : seenPaths a fuel ((obj, ev) :: rest) = seenPaths a fuel rest := by
          unfold seenPaths
          rw [List.filterMap_cons]
          simp [hser]
        simp only [] at hrun
        cases hrest : runCalls a env fuel ⟨mkMap ss 1, .table (mkMapRev ss 1), ss.length + 1⟩
            rest with
        | none => rw [hrest] at hrun; simp at hrun
        | some r =>
          obtain ⟨outs2, st2⟩ := r
          rw [hrest] at hrun
          simp only [Option.some.injEq, Prod.mk.injEq] at hrun
          rw [hseen, ← hrun.2]
          exact ih ss outs2 st2 hrest
      | cons e0 ptail =>
        have hseen : seenPaths a fuel ((obj, ev) :: rest)
            = (e0 :: ptail) :: seenPaths a fuel rest := by
          unfold seenPaths
          rw [List.filterMap_cons]
          simp [hser]
        simp only [] at hrun
        cases hes : serialize_event env ev with
        | none => rw [hes] at hrun; simp at hrun
        | some es =>
          rw [hes] at hrun
          simp only [] at hrun
          cases hlook : dlookup (mkMap ss 1) (e0 :: ptail) with
          | some i =>
            rw [hlook] at hrun
            simp only [] at hrun
            cases hrest : runCalls a env fuel
                ⟨mkMap ss 1, .table (mkMapRev ss 1), ss.length + 1⟩ rest with
            | none => rw [hrest] at hrun; simp at hrun
            | some r =>
              obtain ⟨outs2, st2⟩ := r
              rw [hrest] at hrun
              simp only [Option.some.injEq, Prod.mk.injEq] at hrun
              have hmem : (e0 :: ptail) ∈ ss := by
                by_contra hm
                rw [mkMap_lookup_none ss 1 _ hm] at hlook
                simp at hlook
              rw [hseen]
              unfold firstSeen
              rw [if_pos hmem, ← hrun.2]
              exact ih ss outs2 st2 hrest
          | none =>
            rw [hlook] at hrun
            simp only [] at hrun
            have hnotmem : (e0 :: ptail) ∉ ss := by
              intro hm
              obtain ⟨i, hi⟩ := mkMap_lookup_mem ss 1 _ hm
              rw [hi] at hlook
              simp at hlook
            have hins1 : dinsert (mkMap ss 1) (e0 :: ptail) (ss.length + 1)
                = mkMap (ss ++ [e0 :: ptail]) 1 := by
              rw [dinsert_fresh _ _ _ hlook, mkMap_append,
                show 1 + ss.length = ss.length + 1 from by omega]
            have hins2 : dinsert (mkMapRev ss 1) (ss.length + 1) (e0 :: ptail)
                = mkMapRev (ss ++ [e0 :: ptail]) 1 := by
              rw [dinsert_fresh _ _ _ (mkMapRev_lookup_ge ss 1 (ss.length + 1) (by omega)),
                mkMapRev_append, show 1 + ss.length = ss.length + 1 from by omega]
            have hauto : ss.length + 1 + 1 = (ss ++ [e0 :: ptail]).length + 1 := by simp
            rw [hins1, hins2, hauto] at hrun
            cases hrest : runCalls a env fuel
                ⟨mkMap (ss ++ [e0 :: ptail]) 1, .table (mkMapRev (ss ++ [e0 :: ptail]) 1),
                 (ss ++ [e0 :: ptail]).length + 1⟩ rest with
            | none => rw [hrest] at hrun; simp at hrun
            | some r =>
              obtain ⟨outs2, st2⟩ := r
              rw [hrest] at hrun
              simp only [Option.some.injEq, Prod.mk.injEq] at hrun
              rw [hseen]
              unfold firstSeen
              rw [if_neg hnotmem, ← hrun.2]
              exact ih (ss ++ [e0 :: ptail]) outs2 st2 hrest

/-- Registry entries are never overwritten: an id, once assigned, is
stable across every later `getstate` call. -/
theorem runCalls_mono (a : App) (env : QtEnv) (fuel : Nat) :
    ∀ (calls : List (Nat × QtEvent)) (st : RState) (outs : List (Option (Nat × SerEvent)))
      (st' : RState),
      runCalls a env fuel st calls = some (outs, st') →
      ∀ p i, dlookup st.obj_id_map p = some i → dlookup st'.obj_id_map p = some i := by
  intro calls
  induction calls with
  | nil =>
    intro st outs st' hrun p i h
    simp only [runCalls, Option.some.injEq, Prod.mk.injEq] at hrun
    rw [← hrun.2]
    exact h
  | cons c rest ih =>
    intro st outs st' hrun p i h
    obtain ⟨obj, ev⟩ := c
    unfold runCalls getstate at hrun
    cases hser : serializeObject a fuel obj with
    | none => rw [hser] at hrun; simp at hrun
    | some q =>
      rw [hser] at hrun
      cases q with
      | nil =>
        simp only [] at hrun
        cases hrest : runCalls a env fuel st rest with
        | none => rw [hrest] at hrun; simp at hrun
        | some r =>
          obtain ⟨outs2, st2⟩ := r
          rw [hrest] at hrun
          simp only [Option.some.injEq, Prod.mk.injEq] at hrun
          rw [← hrun.2]
          exact ih st outs2 st2 hrest p i h
      | cons e0 ptail =>
        simp only [] at hrun
        cases hes : serialize_event env ev with
        | none => rw [hes] at hrun; simp at hrun
        | some es =>
          rw [hes] at hrun
          simp only [] at hrun
          cases hlook : dlookup st.obj_id_map (e0 :: ptail) with
          | some j =>
            rw [hlook] at hrun
            simp only [] at hrun
            cases hrest : runCalls a env fuel st rest with
            | none => rw [hrest] at hrun; simp at hrun
            | some r =>
              obtain ⟨outs2, st2⟩ := r
              rw [hrest] at hrun
              simp only [Option.some.injEq, Prod.mk.injEq] at hrun
              rw [← hrun.2]
              exact ih st outs2 st2 hrest p i h
          | none =>
            rw [hlook] at hrun
            simp only [] at hrun
            cases hmap : st.id_obj_map with
            | identity => rw [hmap] at hrun; simp at hrun
            | table d =>
              rw [hmap] at hrun
              simp only [] at hrun
              cases hrest : runCalls a env fuel
                  ⟨dinsert st.obj_id_map (e0 :: ptail) st.autoinc,
                   .table (dinsert d st.autoinc (e0 :: ptail)), st.autoinc + 1⟩ rest with
              | none => rw [hrest] at hrun; simp at hrun
              | some r =>
                obtain ⟨outs2, st2⟩ := r
                rw [hrest] at hrun
                simp only [Option.some.injEq, Prod.mk.injEq] at hrun
                rw [← hrun.2]
                refine ih _ outs2 st2 hrest p i ?_
                show dlookup (dinsert st.obj_id_map (e0 :: ptail) st.autoinc) p = some i
                rw [dinsert_fresh _ _ _ hlook]
                exact dlookup_append_left _ _ p i h

/-- Each returned pair's id is exactly what the final registry maps the
call's path to. -/
theorem runCalls_out (a : App) (env : QtEnv) (fuel : Nat) :
    ∀ (calls : List (Nat × QtEvent)) (st : RState) (outs : List (Option (Nat × SerEvent)))
      (st' : RState),
      runCalls a env fuel st calls = some (outs, st') →
      ∀ (n : Nat) (c : Nat × QtEvent), calls.get? n = some c →
        ∀ p, serializeObject a fuel c.1 = some p → p ≠ [] →
          ∃ i es, outs.get? n = some (some (i, es)) ∧ dlookup st'.obj_id_map p = some i := by
  intro calls
  induction calls with
  | nil => intro st outs st' _ n c hc; simp at hc
  | cons c0 rest ih =>
    intro st outs st' hrun n c hc p hp hpne
    obtain ⟨obj, ev⟩ := c0
    unfold runCalls getstate at hrun
    cases hser : serializeObject a fuel obj with
    | none => rw [hser] at hrun; simp at hrun
    | some q =>
      rw [hser] at hrun
      cases q with
      | nil =>
        simp only [] at hrun
        cases hrest : runCalls a env fuel st rest with
        | none => rw [hrest] at hrun; simp at hrun
        | some r =>
          obtain ⟨outs2, st2⟩ := r
          rw [hrest] at hrun
          simp only [Option.some.injEq, Prod.mk.injEq] at hrun
          cases n with
          | zero =>
            simp at hc
            rw [← hc] at hp
            simp only [] at hp
            rw [hser] at hp
            simp at hp
            exact absurd hp hpne
          | succ m =>
            simp only [List.get?_cons_succ] at hc
            obtain ⟨i, es, ho, hl⟩ := ih st outs2 st2 hrest m c hc p hp hpne
            refine ⟨i, es, ?_, by rw [← hrun.2]; exact hl⟩
            rw [← hrun.1]
            simpa using ho
      | cons e0 ptail =>
        simp only [] at hrun
        cases hes : serialize_event env ev with
        | none => rw [hes] at hrun; simp at hrun
        | some es0 =>
          rw [hes] at hrun
          simp only [] at hrun
          cases hlook : dlookup st.obj_id_map (e0 :: ptail) with
          | some j =>
            rw [hlook] at hrun
            simp only [] at hrun
            cases hrest : runCalls a env fuel st rest with
            | none => rw [hrest] at hrun; simp at hrun
            | some r =>
              obtain ⟨outs2, st2⟩ := r
              rw [hrest] at hrun
              simp only [Option.some.injEq, Prod.mk.injEq] at hrun
              cases n with
              | zero =>
                simp at hc
                rw [← hc] at hp
                simp only [] at hp
                rw [hser] at hp
                simp at hp
                refine ⟨j, es0, ?_, ?_⟩
                · rw [← hrun.1]; rfl
                · rw [← hrun.2, ← hp]
                  exact runCalls_mono a env fuel rest st outs2 st2 hrest _ j hlook
              | succ m =>
                simp only [List.get?_cons_succ] at hc
                obtain ⟨i, es, ho, hl⟩ := ih st outs2 st2 hrest m c hc p hp hpne
                refine ⟨i, es, ?_, by rw [← hrun.2]; exact hl⟩
                rw [← hrun.1]
                simpa using ho
          | none =>
            rw [hlook] at hrun
            simp only [] at hrun
            cases hmap : st.id_obj_map with
            | identity => rw [hmap] at hrun; simp at hrun
            | table d =>
              rw [hmap] at hrun
              simp only [] at hrun
              cases hrest : runCalls a env fuel
                  ⟨dinsert st.obj_id_map (e0 :: ptail) st.autoinc,
                   .table (dinsert d st.autoinc (e0 :: ptail)), st.autoinc + 1⟩ rest with
              | none => rw [hrest] at hrun; simp at hrun
              | some r =>
                obtain ⟨outs2, st2⟩ := r
                rw [hrest] at hrun
                simp only [Option.some.injEq, Prod.mk.injEq] at hrun
                cases n with
                | zero =>
                  simp at hc
                  rw [← hc] at hp
                  simp only [] at hp
                  rw [hser] at hp
                  simp at hp
                  refine ⟨st.autoinc, es0, ?_, ?_⟩
                  · rw [← hrun.1]; rfl
                  · rw [← hrun.2, ← hp]
                    refine runCalls_mono a env fuel rest _ outs2 st2 hrest _ st.autoinc ?_
                    show dlookup (dinsert st.obj_id_map (e0 :: ptail) st.autoinc) (e0 :: ptail)
                      = some st.autoinc
                    rw [dinsert_fresh _ _ _ hlook]
                    exact dlookup_append_none _ _ _ hlook
                | succ m =>
                  simp only [List.get?_cons_succ] at hc
                  obtain ⟨i, es, ho, hl⟩ := ih _ outs2 st2 hrest m c hc p hp hpne
                  refine ⟨i, es, ?_, by rw [← hrun.2]; exact hl⟩
                  rw [← hrun.1]
                  simpa using ho

/-- C4: over any sequence of `getstate` calls on a freshly constructed
recorder Resolver, two calls whose objects resolve to the same nonempty
`ObjectPath` are answered with the same object id; the final registry is
exactly the first-seen path list paired with ids 1, 2, 3, ...; in
particular the ids are the dense integers `1 .. n` in first-appearance
order. -/
theorem getstate_ids_dense (a : App) (env : QtEnv) (fuel : Nat)
    (calls : List (Nat × QtEvent)) (outs : List (Option (Nat × SerEvent))) (st : RState)
    (hrun : runCalls a env fuel freshRState calls = some (outs, st)) :
    (∀ (n1 n2 : Nat) (c1 c2 : Nat × QtEvent) (p : ObjPath),
      calls.get? n1 = some c1 → calls.get? n2 = some c2 →
      serializeObject a fuel c1.1 = some p → serializeObject a fuel c2.1 = some p → p ≠ [] →
      ∃ i es1 es2, outs.get? n1 = some (some (i, es1)) ∧ outs.get? n2 = some (some (i, es2))) ∧
    st.obj_id_map = mkMap (firstSeen [] (seenPaths a fuel calls)) 1 ∧
    st.obj_id_map.map Prod.snd = List.range' 1 st.obj_id_map.length := by
  have hreg := runCalls_reg a env fuel calls [] outs st hrun
  refine ⟨?_, ?_, ?_⟩
  · intro n1 n2 c1 c2 p hc1 hc2 hp1 hp2 hpne
    obtain ⟨i1, es1, ho1, hl1⟩ :=
      runCalls_out a env fuel calls freshRState outs st hrun n1 c1 hc1 p hp1 hpne
    obtain ⟨i2, es2, ho2, hl2⟩ :=
      runCalls_out a env fuel calls freshRState outs st hrun n2 c2 hc2 p hp2 hpne
    have : i1 = i2 := by
      rw [hl1] at hl2
      exact Option.some_injective _ hl2
    exact ⟨i1, es1, es2, ho1, this ▸ ho2⟩
  · rw [hreg]
  · rw [hreg]
    show (mkMap (firstSeen [] (seenPaths a fuel calls)) 1).map Prod.snd = _
    rw [mkMap_ids, mkMap_length]

theorem getstate_ids_dense_witness :
    (∃ i es1 es2,
      ([some (1, (⟨"QCloseEvent", []⟩ : SerEvent)), some (1, ⟨"QCloseEvent", []⟩),
        some (2, ⟨"QCloseEvent", []⟩)] : List (Option (Nat × SerEvent))).get? 0
          = some (some (i, es1)) ∧
      ([some (1, (⟨"QCloseEvent", []⟩ : SerEvent)), some (1, ⟨"QCloseEvent", []⟩),
        some (2, ⟨"QCloseEvent", []⟩)] : List (Option (Nat × SerEvent))).get? 1
          = some (some (i, es2))) ∧
    (RState.mk [([⟨0, "W", ""⟩, ⟨0, "B", ""⟩], 1), ([⟨0, "W", ""⟩], 2)]
        (.table [(1, [⟨0, "W", ""⟩, ⟨0, "B", ""⟩]), (2, [⟨0, "W", ""⟩])]) 3).obj_id_map
      = mkMap (firstSeen [] (seenPaths c1App 5 [(1, .close), (1, .close), (0, .close)])) 1 := by
  have h := getstate_ids_dense c1App miniQt 5 [(1, .close), (1, .close), (0, .close)]
    [some (1, ⟨"QCloseEvent", []⟩), some (1, ⟨"QCloseEvent", []⟩), some (2, ⟨"QCloseEvent", []⟩)]
    ⟨[([⟨0, "W", ""⟩, ⟨0, "B", ""⟩], 1), ([⟨0, "W", ""⟩], 2)],
     .table [(1, [⟨0, "W", ""⟩, ⟨0, "B", ""⟩]), (2, [⟨0, "W", ""⟩])], 3⟩
    (by decide)
  exact ⟨h.1 0 1 (1, .close) (1, .close) [⟨0, "W", ""⟩, ⟨0, "B", ""⟩]
    (by decide) (by decide) (by decide) (by decide) (by decide), h.2.1⟩

/-- The two registry maps are mutual inverses. -/
def MutualInv (st : RState) : Prop :=
  ∃ d, st.id_obj_map = .table d ∧
    (∀ p i, dlookup st.obj_id_map p = some i → dlookup d i = some p) ∧
    (∀ i p, dlookup d i = some p → dlookup st.obj_id_map p = some i)

/-- C10 (implicit): after every sequence of `getstate` calls on a
Resolver constructed with a fresh registry, `obj_id_map` and
`id_obj_map` are mutual inverses; since every reachable intermediate
state is itself the final state of a prefix of the call sequence, every
single `getstate` call preserves the invariant along the way. -/
theorem registry_mutual_inverse (a : App) (env : QtEnv) (fuel : Nat)
    (calls : List (Nat × QtEvent)) (outs : List (Option (Nat × SerEvent))) (st : RState)
    (hrun : runCalls a env fuel freshRState calls = some (outs, st)) :
    MutualInv st := by
  have hreg := runCalls_reg a env fuel calls [] outs st hrun
  have hnd : (firstSeen [] (seenPaths a fuel calls)).Nodup :=
    firstSeen_nodup (seenPaths a fuel calls) [] (by simp)
  rw [hreg]
  exact ⟨mkMapRev (firstSeen [] (seenPaths a fuel calls)) 1, rfl,
    fun p i h => mkMap_to_rev _ 1 p i h,
    fun i p h => rev_to_mkMap _ 1 p i hnd h⟩

theorem registry_mutual_inverse_witness :
    MutualInv ⟨[([⟨0, "W", ""⟩, ⟨0, "B", ""⟩], 1), ([⟨0, "W", ""⟩], 2)],
      .table [(1, [⟨0, "W", ""⟩, ⟨0, "B", ""⟩]), (2, [⟨0, "W", ""⟩])], 3⟩ :=
  registry_mutual_inverse c1App miniQt 5 [(1, .close), (1, .close), (0, .close)]
    [some (1, ⟨"QCloseEvent", []⟩), some (1, ⟨"QCloseEvent", []⟩), some (2, ⟨"QCloseEvent", []⟩)]
    _ (by decide)

/-! ### Scenario persistence and replay (src/pyqttester.py lines 34, 721-829) -/

/-- `SCENARIO_FORMAT_VERSION` (src/pyqttester.py line 34). -/
def scenarioFormatVersion : Int := 1

/-- One item of the pickled scenario list: the leading version integer,
the object registry dict, or an `(object_id, serialized_event)` pair
(a format-0 pair carries the inline path instead of an id). -/
inductive PickledItem where
  | num (n : Int)
  | table (d : List (Nat × ObjPath))
  | ev (k : ObjKey) (es : SerEvent)
deriving DecidableEq

/-- `EventReplayer.load` (src/pyqttester.py lines 790-795):
`format_version = next(events); obj_cache = next(events) if
format_version > 0 else None; Resolver(obj_cache)`.  Returns the
Resolver's `id_obj_map` and the remaining event items.  `none` models
the exceptions (empty pickle, or a second item that is not a dict when
the version demands one — the source would defer that crash to the first
lookup, which the claims never exercise). -/
def loadScenario : List PickledItem → Option (IdMapper × List PickledItem)
  | [] => none
  | .num v :: rest =>
    if v > 0 then
      match rest with
      | .table d :: rest2 => some (.table d, rest2)
      | _ => none
    else some (.identity, rest)
  | _ => none

/-- The list `EventRecorder.close` pickles (src/pyqttester.py
lines 726-730 and 773-776): `[SCENARIO_FORMAT_VERSION, obj_cache]`
followed by the recorded `(obj_id, event_str)` pairs (the cache dict is
shared by reference with the Resolver, so the dumped registry is the
final one). -/
def dumpScenario (cache : List (Nat × ObjPath)) (entries : List (Nat × SerEvent)) :
    List PickledItem :=
  .num scenarioFormatVersion :: .table cache ::
    entries.map fun e => .ev (.intId e.1) e.2

/-- C7: a persisted scenario starts with the integer format version; on
load the registry item is consumed exactly when the version is positive
(a recorder-produced scenario loads back to its registry and its event
entries); a version-0 scenario keeps all remaining items as events and
gets the IdentityMapper, which returns a looked-up key — in particular a
format-0 inline path — unchanged. -/
theorem scenario_version_registry :
    (∀ (cache : List (Nat × ObjPath)) (entries : List (Nat × SerEvent)),
      (dumpScenario cache entries).head? = some (.num scenarioFormatVersion) ∧
      loadScenario (dumpScenario cache entries) =
        some (.table cache, entries.map fun e => .ev (.intId e.1) e.2)) ∧
    (∀ (v : Int) (d : List (Nat × ObjPath)) (rest : List PickledItem), 0 < v →
      loadScenario (.num v :: .table d :: rest) = some (.table d, rest)) ∧
    (∀ (v : Int) (rest : List PickledItem), v ≤ 0 →
      loadScenario (.num v :: rest) = some (.identity, rest)) ∧
    (∀ p : ObjPath, IdMapper.identity.lookupPath (.inline p) = some p) := by
  refine ⟨fun cache entries => ⟨rfl, ?_⟩, fun v d rest hv => ?_, fun v rest hv => ?_,
    fun p => rfl⟩
  · simp only [dumpScenario, loadScenario, scenarioFormatVersion]
    norm_num
  · simp only [loadScenario]
    rw [if_pos hv]
  · simp only [loadScenario]
    rw [if_neg (by omega)]

theorem scenario_version_registry_witness :
    loadScenario (.num 1 :: .table [(1, [⟨0, "W", ""⟩])] :: []) =
      some (.table [(1, [⟨0, "W", ""⟩])], []) ∧
    loadScenario [.num 0, .ev (.inline [⟨0, "W", ""⟩]) ⟨"QCloseEvent", []⟩] =
      some (.identity, [.ev (.inline [⟨0, "W", ""⟩]) ⟨"QCloseEvent", []⟩]) ∧
    IdMapper.identity.lookupPath (.inline [⟨0, "W", ""⟩]) = some [⟨0, "W", ""⟩] :=
  ⟨scenario_version_registry.2.1 1 [(1, [⟨0, "W", ""⟩])] [] (by norm_num),
   scenario_version_registry.2.2.1 0 [.ev (.inline [⟨0, "W", ""⟩]) ⟨"QCloseEvent", []⟩]
     (by norm_num),
   scenario_version_registry.2.2.2 [⟨0, "W", ""⟩]⟩

/-- Outcome of one `Resolver.setstate` call (src/pyqttester.py
lines 669-679). -/
inductive StepResult where
  | exit3
  | crash
  | sent (target : Nat) (ev : QtEvent)
deriving DecidableEq

/-- `Resolver.setstate(obj_id, event_str)`: look the id up in
`id_obj_map` (`KeyError` crashes), resolve the path (`None` → log an
error and `REAL_EXIT(3)`), only then deserialize and `qApp.sendEvent`
the event to the resolved widget. -/
def setstate (a : App) (env : QtEnv) (m : IdMapper) (k : ObjKey) (es : SerEvent) :
    StepResult :=
  match m.lookupPath k with
  | none => .crash
  | some p =>
    match deserializeObject a p with
    | none => .exit3
    | some obj =>
      match deserialize_event env es with
      | none => .crash
      | some ev => .sent obj ev

/-- How a replay run ends. -/
inductive ReplayEnd where
  | quit
  | exited3
  | crashed
deriving DecidableEq

/-- The replay loop: `EventReplayer.replay_next_event` pops one scenario
entry per idle-timer expiry and hands it to `setstate`; exhaustion quits
the application; `REAL_EXIT(3)` terminates the process, so nothing after
it runs.  Returns the `(widget, event)` pairs actually delivered via
`sendEvent`, in order, and the way the run ended. -/
def runReplay (a : App) (env : QtEnv) (m : IdMapper) :
    List PickledItem → List (Nat × QtEvent) × ReplayEnd
  | [] => ([], .quit)
  | .ev k es :: rest =>
    match setstate a env m k es with
    | .exit3 => ([], .exited3)
    | .crash => ([], .crashed)
    | .sent obj ev =>
      let r := runReplay a env m rest
      ((obj, ev) :: r.1, r.2)
  | _ :: _ => ([], .crashed)

/-- The deliveries `setstate` would make for each entry of a list. -/
def sentResults (a : App) (env : QtEnv) (m : IdMapper) :
    List PickledItem → List (Nat × QtEvent)
  | [] => []
  | .ev k es :: rest =>
    (match setstate a env m k es with
     | .sent obj ev => [(obj, ev)]
     | _ => []) ++ sentResults a env m rest
  | _ :: rest => sentResults a env m rest

/-- C6: if a scenario entry's recorded path resolves to no live widget
(`deserialize_object` returns not-found), `setstate` exits with status 3
before the event is even deserialized, the replay run ends right there
with exit status 3, exactly the earlier entries' events were delivered,
and nothing from the failing entry onwards is ever sent. -/
theorem replay_exit3_on_unresolved (a : App) (env : QtEnv) (m : IdMapper)
    (pre post : List PickledItem) (k : ObjKey) (es : SerEvent) (p : ObjPath)
    (hpre : ∀ x ∈ pre, ∃ kk ee obj ev, x = .ev kk ee ∧ setstate a env m kk ee = .sent obj ev)
    (hk : m.lookupPath k = some p)
    (hfail : deserializeObject a p = none) :
    setstate a env m k es = .exit3 ∧
    runReplay a env m (pre ++ .ev k es :: post) = (sentResults a env m pre, .exited3) := by
  have hstep : setstate a env m k es = .exit3 := by
    simp only [setstate, hk, hfail]
  refine ⟨hstep, ?_⟩
  induction pre with
  | nil =>
    show runReplay a env m (.ev k es :: post) = ([], .exited3)
    simp only [runReplay, hstep, sentResults]
  | cons x xs ih =>
    obtain ⟨kk, ee, obj, ev, hx, hsent⟩ := hpre x (by simp)
    subst hx
    have htail := ih fun y hy => hpre y (by simp [hy])
    show runReplay a env m (.ev kk ee :: (xs ++ .ev k es :: post)) = _
    simp [runReplay, hsent, htail, sentResults]

/-- App for the replay witness: a single top-level window of type W and
nothing else, so the recorded path of a second widget resolves to
nothing. -/
def c6App : App where
  topLevel := [0]
  children := fun _ => []
  parent := fun _ => none
  typeOf := fun w => if w = 0 then "W" else "B"
  nameOf := fun _ => ""
  findChildNameHit := fun _ _ => none
  allWidgets := [0]

theorem replay_exit3_on_unresolved_witness :
    setstate c6App miniQt (.table [(1, [⟨0, "W", ""⟩]), (2, [⟨0, "W", ""⟩, ⟨0, "B", ""⟩])])
        (.intId 2) ⟨"QCloseEvent", []⟩ = .exit3 ∧
    runReplay c6App miniQt (.table [(1, [⟨0, "W", ""⟩]), (2, [⟨0, "W", ""⟩, ⟨0, "B", ""⟩])])
        [.ev (.intId 1) ⟨"QCloseEvent", []⟩, .ev (.intId 2) ⟨"QCloseEvent", []⟩,
         .ev (.intId 1) ⟨"QCloseEvent", []⟩]
      = (sentResults c6App miniQt
          (.table [(1, [⟨0, "W", ""⟩]), (2, [⟨0, "W", ""⟩, ⟨0, "B", ""⟩])])
          [.ev (.intId 1) ⟨"QCloseEvent", []⟩], .exited3) :=
  replay_exit3_on_unresolved c6App miniQt
    (.table [(1, [⟨0, "W", ""⟩]), (2, [⟨0, "W", ""⟩, ⟨0, "B", ""⟩])])
    [.ev (.intId 1) ⟨"QCloseEvent", []⟩] [.ev (.intId 1) ⟨"QCloseEvent", []⟩]
    (.intId 2) ⟨"QCloseEvent", []⟩ [⟨0, "W", ""⟩, ⟨0, "B", ""⟩]
    (by intro x hx
        simp at hx
        refine ⟨.intId 1, ⟨"QCloseEvent", []⟩, 0, .close, hx, by decide⟩)
    (by decide) (by decide)

/-! ### The start-up gate (src/pyqttester.py lines 693-715, 744-771) -/

/-- `QtCore.QEvent.ActivationChange` type code (the bootstrap signal). -/
def activationChange : Nat := 99

/-- One step of a filter wrapped by `_EventFilter.wait_for_app_start`
(src/pyqttester.py lines 694-715): the closed-over `is_started` flag
flips, permanently, on the first ActivationChange event; the wrapped
`method` (e.g. `EventRecorder.eventFilter`, which does the
include/exclude filtering, resolving and appending) runs exactly when
the flag is set after this check — so it runs on the gate-opening event
itself and on every later event — and otherwise the call returns False
with no side effects.  The wrapped method's side effects are its state
`σ`; the event type is read off the observed event by `etypeOf`. -/
def waitForAppStart {σ ε : Type} (etypeOf : ε → Nat) (method : σ → ε → σ) :
    Bool × σ → ε → Bool × σ :=
  fun s e =>
    let started := s.1 || (etypeOf e == activationChange)
    if started then (started, method s.2 e) else (started, s.2)

/-- The gated filter over a whole observed event sequence. -/
def gatedRun {σ ε : Type} (etypeOf : ε → Nat) (method : σ → ε → σ)
    (s : Bool × σ) (es : List ε) : Bool × σ :=
  es.foldl (waitForAppStart etypeOf method) s

/-- The bare (ungated) filter method over a sequence. -/
def plainRun {σ ε : Type} (method : σ → ε → σ) (s : σ) (es : List ε) : σ :=
  es.foldl method s

theorem gatedRun_open {σ ε : Type} (etypeOf : ε → Nat) (method : σ → ε → σ) :
    ∀ (es : List ε) (s : σ),
      gatedRun etypeOf method (true, s) es = (true, plainRun method s es) := by
  intro es
  induction es with
  | nil => intro s; rfl
  | cons e rest ih =>
    intro s
    show gatedRun etypeOf method (waitForAppStart etypeOf method (true, s) e) rest = _
    have hstep : waitForAppStart etypeOf method (true, s) e = (true, method s e) := by
      unfold waitForAppStart
      simp
    rw [hstep, ih (method s e)]
    rfl

/-- C9: no event reaches the wrapped recorder method (so nothing is ever
recorded) while the observed sequence contains no ActivationChange
event, and the recorder state is untouched; and the gate is one-way:
from the first ActivationChange on, the gated filter behaves exactly
like the ungated method — the opening event and every subsequent event
are processed, and the gate stays open. -/
theorem startup_gate_one_way :
    (∀ (σ ε : Type) (etypeOf : ε → Nat) (method : σ → ε → σ) (s0 : σ) (es : List ε),
      (∀ e ∈ es, etypeOf e ≠ activationChange) →
      gatedRun etypeOf method (false, s0) es = (false, s0)) ∧
    (∀ (σ ε : Type) (etypeOf : ε → Nat) (method : σ → ε → σ) (s0 : σ)
      (pre post : List ε) (ac : ε),
      (∀ e ∈ pre, etypeOf e ≠ activationChange) → etypeOf ac = activationChange →
      gatedRun etypeOf method (false, s0) (pre ++ ac :: post) =
        (true, plainRun method s0 (ac :: post))) := by
  constructor
  · intro σ ε etypeOf method s0 es
    induction es with
    | nil => intro _; rfl
    | cons e rest ih =>
      intro hno
      show gatedRun etypeOf method (waitForAppStart etypeOf method (false, s0) e) rest
        = (false, s0)
      have hstep : waitForAppStart etypeOf method (false, s0) e = (false, s0) := by
        unfold waitForAppStart
        simp [hno e (by simp)]
      rw [hstep]
      exact ih fun x hx => hno x (by simp [hx])
  · intro σ ε etypeOf method s0 pre
    induction pre with
    | nil =>
      intro post ac _ hac
      show gatedRun etypeOf method (waitForAppStart etypeOf method (false, s0) ac) post = _
      have hstep : waitForAppStart etypeOf method (false, s0) ac = (true, method s0 ac) := by
        unfold waitForAppStart
        simp [hac]
      rw [hstep, gatedRun_open]
      rfl
    | cons x xs ih =>
      intro post ac hno hac
      show gatedRun etypeOf method (waitForAppStart etypeOf method (false, s0) x)
        (xs ++ ac :: post) = _
      have hstep : waitForAppStart etypeOf method (false, s0) x = (false, s0) := by
        unfold waitForAppStart
        simp [hno x (by simp)]
      rw [hstep]
      exact ih post ac (fun y hy => hno y (by simp [hy])) hac

theorem startup_gate_one_way_witness :
    gatedRun (fun e => e) (fun s e => s ++ [e]) (false, ([] : List Nat)) [7, 8] =
      (false, []) ∧
    gatedRun (fun e => e) (fun s e => s ++ [e]) (false, ([] : List Nat))
        ([7, 8] ++ 99 :: [3]) =
      (true, plainRun (fun s e => s ++ [e]) ([] : List Nat) (99 :: [3])) :=
  ⟨startup_gate_one_way.1 (List Nat) Nat (fun e => e) (fun s e => s ++ [e]) [] [7, 8]
     (by decide),
   startup_gate_one_way.2 (List Nat) Nat (fun e => e) (fun s e => s ++ [e]) [] [7, 8] [3] 99
     (by decide) (by decide)⟩

/-! ### qttestgui.py deserialization and the dead fuzzy matcher -/

/-- qttestgui's `_get_children` (src/qttestgui.py lines 386-398) yields
only splitter panes/handles or layout items — and `()` for `None`, since
`candidates` feeds it the possibly-`None` result of `nth`.  Here the
`App.children` field is read as THAT enumeration. -/
def childrenOptG (a : App) : Option Nat → List Nat
  | none => []
  | some w => a.children w

/-- The inner `candidates(path, i, widgets)` of qttestgui
`deserialize_object` (src/qttestgui.py lines 452-465), over the path
suffix from position `i`: at the last element, the typed nth (possibly
`None`); otherwise recurse into the children of this level's typed nth. -/
def candidatesG (a : App) : List PathElement → List Nat → Option Nat
  | [], _ => none
  | [e], ws => typedNth a e.index e.type ws
  | e :: e2 :: rest, ws =>
    candidatesG a (e2 :: rest) (childrenOptG a (typedNth a e.index e.type ws))

/-- qttestgui `Resolver.deserialize_object` (src/qttestgui.py
lines 437-477): the name shortcut on the final element; then, when some
element carries a name, a descent seeded from the by-name hit of the
last named element, starting at that element's first value-equal
position (falling through only when the by-name search raises); else the
full structural descent from the top-level widgets.  The method RETURNS
at line 477; the `FUZZY_MATCHING`-aware `get_candidates` code of
lines 482-524 below it is unreachable, so the `fuzzy` flag — accepted
here as the class attribute the CLI sets — never influences the result. -/
def deserializeObjectGui (a : App) (_fuzzy : Bool) (path : ObjPath) : Option Nat :=
  match path.getLast? with
  | none => none
  | some target =>
    match (if target.name = "" then none else findByName a target) with
    | some w => some w
    | none =>
      match path.reverse.find? (fun e => e.name != "") with
      | some twn =>
        match findByName a twn with
        | none => candidatesG a path a.topLevel
        | some w0 => candidatesG a (path.drop (path.findIdx (· == twn))) [w0]
      | none => candidatesG a path a.topLevel

/-- App for the moved-sibling scenario: the recording-time tree had two
B-typed buttons under window 0 and the target was the one at typed
index 1; in the current tree only the target button (id 2) remains, at
typed index 0. -/
def c8App : App where
  topLevel := [0]
  children := fun w => if w = 0 then [2] else []
  parent := fun w => if w = 2 then some 0 else none
  typeOf := fun w => if w = 0 then "W" else "B"
  nameOf := fun _ => ""
  findChildNameHit := fun _ _ => none
  allWidgets := [0, 2]

/-- C8 exhibit: on the moved-sibling tree the strict structural descent
fails to locate the recorded target (not-found), as the claim's first
half states; but enabling fuzzy matching changes nothing — the result is
still not-found even though a widget of the declared type B exists right
under the window — because the fuzzy matcher is dead code behind the
`return`: `deserialize_object`'s result is independent of the flag for
every app and path. -/
theorem fuzzy_matching_unreachable :
    deserializeObjectGui c8App false [⟨0, "W", ""⟩, ⟨1, "B", ""⟩] = none ∧
    deserializeObjectGui c8App true [⟨0, "W", ""⟩, ⟨1, "B", ""⟩] = none ∧
    (∀ (a : App) (b1 b2 : Bool) (p : ObjPath),
      deserializeObjectGui a b1 p = deserializeObjectGui a b2 p) ∧
    c8App.typeOf 2 = "B" ∧ 2 ∈ c8App.children 0 ∧ 0 ∈ c8App.topLevel :=
  ⟨by decide, by decide, fun a b1 b2 p => rfl, by decide, by decide, by decide⟩

end PyQtTester
